import Mathlib

/-!
# Tiny shell job control (tsh.c)

A shallow embedding of the job table, the reaper, the bg/fg builtin and the
launch-and-wait protocol of `src/tsh.c`, and theorems about them.

Conventions of the embedding:

* the global array `jobs[MAXJOBS]` is a list of slots in slot order; every
  `for (i = 0; i < MAXJOBS; i++)` scan is a recursion over that list;
* the globals `jobs`, `nextjid`, `verbose` form the record `Shell`, which also
  carries the trace of observable effects (text written by `printf`, calls of
  `kill`) in program order;
* a `struct job_t *` result is the index of the slot, `none` for `NULL`;
* a C string that the code scans character by character (`argv[k]`) is the
  list of `char` values found from the pointer on; reading past the end of the
  list reads 0.  Stored command lines are only copied and printed and are
  kept as `String`;
* `int` and `pid_t` values are `Int`.
-/

namespace Tsh

/-! ## Constants -/

/-- Maximum number of jobs at any point in time. -/
def MAXJOBS : Nat := 16

/-- Job state: undefined (free slot). -/
def UNDEF : Int := 0
/-- Job state: running in foreground. -/
def FG : Int := 1
/-- Job state: running in background. -/
def BG : Int := 2
/-- Job state: stopped. -/
def ST : Int := 3

/-- Signal number of SIGCONT (Linux value of the constant from signal.h). -/
def SIGCONT : Int := 18

/-! ## Data model -/

/-- The characters of a C string as `char` values, from the pointer on. -/
abbrev CStr := List Int

/-- The job struct. -/
structure job_t where
  pid : Int
  jid : Int
  state : Int
  cmdline : String
deriving DecidableEq, Repr

/-- An observable effect of the shell. -/
inductive Event where
  | print (text : String)
  | kill (pid : Int) (sig : Int)
deriving DecidableEq, Repr

/-- The global variables of the shell, with the trace of its effects. -/
structure Shell where
  jobs : List job_t
  nextjid : Int
  verbose : Int
  out : List Event
deriving DecidableEq, Repr

/-- How a call that may block or dereference a pointer ends: it returns, it
stays in the polling loop of waitfg on a slot, or it dereferences NULL. -/
inductive Control where
  | returned
  | waiting (slot : Nat)
  | fault
deriving DecidableEq, Repr

/-- The outcome of a child as decoded by WIFEXITED, WIFSIGNALED, WIFSTOPPED
from the status that waitpid stores. -/
inductive Status where
  | exited (code : Int)
  | signaled (sig : Int)
  | stopped (sig : Int)
deriving DecidableEq, Repr

/-! ## Job list helper routines -/

/-- Clear the entries in a job struct. -/
def clearjob (_job : job_t) : job_t :=
  { pid := 0, jid := 0, state := UNDEF, cmdline := "" }

/-- Initialize the job list. -/
def initjobs (jobs : List job_t) : List job_t :=
  jobs.map clearjob

/-- The job array as the loader leaves it (static storage, all zero). -/
def zeroJobs : List job_t :=
  List.replicate MAXJOBS { pid := 0, jid := 0, state := 0, cmdline := "" }

/-- The shell after main has called initjobs: nextjid is 1, verbose is 0. -/
def initShell : Shell :=
  { jobs := initjobs zeroJobs, nextjid := 1, verbose := 0, out := [] }

/-- Returns largest allocated job ID. -/
def maxjid (jobs : List job_t) : Int :=
  jobs.foldl (fun max j => if j.jid > max then j.jid else max) 0

/-- The scan of addjob: fill the first slot whose pid is 0. -/
def addjobScan (pid state jid : Int) (cmdline : String) : List job_t → Option (List job_t)
  | [] => none
  | j :: rest =>
    if j.pid = 0 then
      some ({ pid := pid, jid := jid, state := state, cmdline := cmdline } :: rest)
    else
      (addjobScan pid state jid cmdline rest).map (fun r => j :: r)

/-- Add a job to the job list. -/
def addjob (s : Shell) (pid state : Int) (cmdline : String) : Int × Shell :=
  if pid < 1 then (0, s)
  else
    match addjobScan pid state s.nextjid cmdline s.jobs with
    | some jobs1 =>
      let next := s.nextjid + 1
      let next := if next > (MAXJOBS : Int) then 1 else next
      let out := if s.verbose ≠ 0 then
          s.out ++ [Event.print ("Added job [" ++ toString s.nextjid ++ "] " ++
            toString pid ++ " " ++ cmdline ++ "\n")]
        else s.out
      (1, { s with jobs := jobs1, nextjid := next, out := out })
    | none =>
      (0, { s with out := s.out ++ [Event.print "Tried to create too many jobs\n"] })

/-- The scan of deletejob: clear the first slot whose pid is the given one. -/
def deletejobScan (pid : Int) : List job_t → Option (List job_t)
  | [] => none
  | j :: rest =>
    if j.pid = pid then some (clearjob j :: rest)
    else (deletejobScan pid rest).map (fun r => j :: r)

/-- Delete a job whose PID=pid from the job list. -/
def deletejob (s : Shell) (pid : Int) : Int × Shell :=
  if pid < 1 then (0, s)
  else
    match deletejobScan pid s.jobs with
    | some jobs1 => (1, { s with jobs := jobs1, nextjid := maxjid jobs1 + 1 })
    | none => (0, s)

/-- Return PID of current foreground job, 0 if no such job. -/
def fgpid : List job_t → Int
  | [] => 0
  | j :: rest => if j.state = FG then j.pid else fgpid rest

/-- The scan shared by getjobpid and getjobjid: index of the first slot that
satisfies the test. -/
def firstSlot (test : job_t → Bool) : List job_t → Option Nat
  | [] => none
  | j :: rest => if test j then some 0 else (firstSlot test rest).map Nat.succ

/-- Find a job (by PID) on the job list. -/
def getjobpid (jobs : List job_t) (pid : Int) : Option Nat :=
  if pid < 1 then none else firstSlot (fun j => decide (j.pid = pid)) jobs

/-- Find a job (by JID) on the job list. -/
def getjobjid (jobs : List job_t) (jid : Int) : Option Nat :=
  if jid < 1 then none else firstSlot (fun j => decide (j.jid = jid)) jobs

/-- The scan of pid2jid. -/
def pid2jidScan (pid : Int) : List job_t → Int
  | [] => 0
  | j :: rest => if j.pid = pid then j.jid else pid2jidScan pid rest

/-- Map process ID to job ID. -/
def pid2jid (jobs : List job_t) (pid : Int) : Int :=
  if pid < 1 then 0 else pid2jidScan pid jobs

/-- The assignment through a job pointer to its state field. -/
def setState (st : Int) : Nat → List job_t → List job_t
  | _, [] => []
  | 0, j :: rest => { j with state := st } :: rest
  | n + 1, j :: rest => j :: setState st n rest

/-! ## Sequences of table operations -/

/-- A call of one of the two operations that change which jobs are live. -/
inductive TableOp where
  | add (pid state : Int) (cmdline : String)
  | del (pid : Int)
deriving DecidableEq, Repr

/-- Run one table operation, dropping the return value. -/
def runOp (s : Shell) : TableOp → Shell
  | .add pid state cmdline => (addjob s pid state cmdline).2
  | .del pid => (deletejob s pid).2

/-- Run a sequence of table operations in order. -/
def runOps (s : Shell) (ops : List TableOp) : Shell :=
  ops.foldl runOp s

/-- The job ids of the live slots (pid not 0), in slot order. -/
def liveJids (jobs : List job_t) : List Int :=
  (jobs.filter (fun j => decide (j.pid ≠ 0))).map (fun j => j.jid)

/-- The pids of the live slots (pid not 0), in slot order. -/
def livePids (jobs : List job_t) : List Int :=
  (jobs.filter (fun j => decide (j.pid ≠ 0))).map (fun j => j.pid)

/-- Every added pid is positive and not currently in the table. -/
def freshAdds (s : Shell) : List TableOp → Bool
  | [] => true
  | op :: rest =>
    (match op with
      | .add pid _ _ => decide (0 < pid) && decide (pid ∉ livePids s.jobs)
      | .del _ => true) && freshAdds (runOp s op) rest

/-- Fifteen launches, the exit of the second job, then two more launches. -/
def wrapOps : List TableOp :=
  (List.range 15).map (fun i => TableOp.add ((i : Int) + 1) BG "job\n")
    ++ [TableOp.del 2, TableOp.add 16 BG "job\n", TableOp.add 17 BG "job\n"]

/-! ## C strings -/

/-- The character read at index i; past the end of the list the read is 0. -/
def charAt (s : CStr) (i : Nat) : Int := s.getD i 0

/-- The string that starts at the pointer: the characters before the first 0. -/
def cstr (s : CStr) : CStr := s.takeWhile (fun c => decide (c ≠ 0))

/-- The characters of a literal, as a C string. -/
def ofString (s : String) : CStr := s.toList.map (fun c => (c.toNat : Int))

/-- The text that printf writes for a C string under the format percent-s. -/
def str (s : CStr) : String := String.mk ((cstr s).map (fun c => Char.ofNat (c % 256).toNat))

/-- The test strcmp(a, lit) == 0. -/
def strcmpEq (a : CStr) (lit : String) : Bool := decide (cstr a = ofString lit)

/-- The character is a decimal digit, 0x30 to 0x39. -/
def isDigit (c : Int) : Bool := decide (0x30 ≤ c) && decide (c ≤ 0x39)

/-- The character is white space for the C library (isspace in the C locale). -/
def isSpace (c : Int) : Bool := decide (c = 0x20) || (decide (0x09 ≤ c) && decide (c ≤ 0x0d))

/-- The digits part of atoi: accumulate decimal digits until another character. -/
def atoiDigits (acc : Int) : CStr → Int
  | [] => acc
  | c :: rest => if isDigit c then atoiDigits (acc * 10 + (c - 0x30)) rest else acc

/-- The sign part of atoi: an optional plus or minus, then the digits. -/
def atoiSign : CStr → Int
  | [] => 0
  | c :: rest =>
    if c = 0x2d then - atoiDigits 0 rest
    else if c = 0x2b then atoiDigits 0 rest
    else atoiDigits 0 (c :: rest)

/-- The white space part of atoi: skip leading white space. -/
def atoiSkip : CStr → Int
  | [] => 0
  | c :: rest => if isSpace c then atoiSkip rest else atoiSign (c :: rest)

/-- The C library function strtol in base 10 with a 64-bit long: leading white
space, an optional sign, decimal digits; a value above LONG_MAX gives LONG_MAX
and a value below LONG_MIN gives LONG_MIN. -/
def strtol (s : CStr) : Int :=
  let v := atoiSkip s
  if v > 2 ^ 63 - 1 then 2 ^ 63 - 1
  else if v < -(2 ^ 63) then -(2 ^ 63)
  else v

/-- The C library function atoi as the shell calls it (glibc): the result of
strtol converted to int, which keeps the low 32 bits in two's complement. -/
def atoi (s : CStr) : Int := (strtol s + 2 ^ 31) % 2 ^ 32 - 2 ^ 31

/-! ## Wait for the foreground job -/

/-- Block until process pid is no longer the foreground process.  The loop
polls the state of the slot that getjobpid returned; the result says whether
the call returns at once, stays in the loop on that slot, or dereferences the
NULL that getjobpid returned. -/
def waitfg (jobs : List job_t) (pid : Int) : Control :=
  if pid = 0 then .returned
  else
    match getjobpid jobs pid with
    | none => .fault
    | some i =>
      match jobs.get? i with
      | some j => if j.state = FG then .waiting i else .returned
      | none => .fault

/-! ## Launch: the parent part of eval -/

/-- The parent part of eval after fork returned pid (pid greater than 0):
addjob, then waitfg for a foreground job or the line printed for a background
job.  The flag bg is the result of parseline. -/
def eval_parent (s : Shell) (pid : Int) (bg : Bool) (cmdline : String) : Shell × Control :=
  let s1 := (addjob s pid (if bg then BG else FG) cmdline).2
  if !bg then (s1, waitfg s1.jobs pid)
  else
    let jid := pid2jid s1.jobs pid
    ({ s1 with out := s1.out ++ [Event.print
        ("[" ++ toString jid ++ "] (" ++ toString pid ++ ") " ++ cmdline)] }, .returned)

/-! ## The reaper -/

/-- The body of the loop of sigchld_handler for one child that waitpid
reported.  The result is none when the handler dereferences the NULL that
getjobpid returned. -/
def reap (s : Shell) (pid : Int) : Status → Option Shell
  | .exited _ => some (deletejob s pid).2
  | .signaled sig =>
    let jid := pid2jid s.jobs pid
    let s1 := (deletejob s pid).2
    some { s1 with out := s1.out ++ [Event.print
      ("Job [" ++ toString jid ++ "] (" ++ toString pid ++ ") terminated by signal "
        ++ toString sig ++ "\n")] }
  | .stopped sig =>
    let jid := pid2jid s.jobs pid
    match getjobpid s.jobs pid with
    | none => none
    | some i =>
      some { s with jobs := setState ST i s.jobs, out := s.out ++ [Event.print
        ("Job [" ++ toString jid ++ "] (" ++ toString pid ++ ") stopped by signal "
          ++ toString sig ++ "\n")] }

/-- The handler of SIGCHLD: the list holds the successive results of waitpid;
the loop ends at the first result that is not positive, or when the list ends. -/
def sigchld_handler (s : Shell) : List (Int × Status) → Option Shell
  | [] => some s
  | (pid, status) :: rest =>
    if pid > 0 then (reap s pid status).bind (fun s1 => sigchld_handler s1 rest)
    else some s

/-! ## The bg and fg builtins -/

/-- The loop of do_bgfg over arg2 from index 1: it runs while the character is
above 0x20 and clears both flags at a character that is not a digit. -/
def scanArg (isJID isPID : Bool) : CStr → Bool × Bool
  | [] => (isJID, isPID)
  | c :: rest =>
    if c > 0x20 then
      if c < 0x30 ∨ c > 0x39 then scanArg false false rest
      else scanArg isJID isPID rest
    else (isJID, isPID)

/-- The flags isJID and isPID of do_bgfg when its loop has ended. -/
def selector (arg2 : CStr) : Bool × Bool :=
  scanArg (decide (charAt arg2 0 = 0x25))
    (decide (charAt arg2 0 ≥ 0x30) && decide (charAt arg2 0 ≤ 0x39)) (arg2.drop 1)

/-- The last part of do_bgfg: change the state of the job found according to
arg1. -/
def bgfgApply (s : Shell) (arg1 : CStr) (i : Nat) : Shell × Control :=
  match s.jobs.get? i with
  | none => (s, .fault)
  | some job =>
    if strcmpEq arg1 "bg" then
      ({ s with
          jobs := setState BG i s.jobs,
          out := s.out ++ [Event.print
            ("[" ++ toString job.jid ++ "] (" ++ toString job.pid ++ ") " ++ job.cmdline),
            Event.kill (- job.pid) SIGCONT] }, .returned)
    else if strcmpEq arg1 "fg" then
      let jobs1 := setState FG i s.jobs
      ({ s with jobs := jobs1, out := s.out ++ [Event.kill (- job.pid) SIGCONT] },
        waitfg jobs1 job.pid)
    else (s, .returned)

/-- Execute the builtin bg and fg commands.  The list argv holds the words up
to the terminating NULL; builtin_cmd passes a list whose first word is the
verb. -/
def do_bgfg (s : Shell) (argv : List CStr) : Shell × Control :=
  match argv with
  | [] => (s, .fault)
  | [arg1] =>
    ({ s with out := s.out ++ [Event.print
        (str arg1 ++ " command requires PID or %jobid argument\n")] }, .returned)
  | arg1 :: arg2 :: _ =>
    let flags := selector arg2
    if flags.2 then
      let pid := atoi arg2
      match getjobpid s.jobs pid with
      | none =>
        ({ s with out := s.out ++ [Event.print
            ("(" ++ toString pid ++ "): No such process\n")] }, .returned)
      | some i => bgfgApply s arg1 i
    else if flags.1 then
      let jid := atoi (arg2.drop 1)
      match getjobjid s.jobs jid with
      | none =>
        ({ s with out := s.out ++ [Event.print (str arg2 ++ ": No such job\n")] }, .returned)
      | some i => bgfgApply s arg1 i
    else
      ({ s with out := s.out ++ [Event.print
          (str arg1 ++ ": argument must be a PID or %jobid\n")] }, .returned)

/-! ## The sequential step model -/

/-- The shell with the control state of its main flow: the slot that waitfg is
polling, or none when the main flow is ready for the next command. -/
structure Sys where
  sh : Shell
  polling : Option Nat
deriving DecidableEq, Repr

/-- The control state that a finished call leaves. -/
def Control.toPolling : Control → Option Nat
  | .waiting i => some i
  | _ => none

/-- One step of the sequential model.  A command is taken only when waitfg is
not polling; fork returns a positive pid that no live slot holds (the children
in the table have not been reaped); the reaper may run at any time on a
positive pid that waitpid reports, and one run of sigchld_handler is a
sequence of such steps; waitfg returns when the slot it polls is no longer FG.
A step that dereferences NULL ends the shell and has no successor. -/
inductive Step : Sys → Sys → Prop where
  | launch (s : Sys) (pid : Int) (bg : Bool) (cmdline : String) :
      s.polling = none → 0 < pid → pid ∉ livePids s.sh.jobs →
      (eval_parent s.sh pid bg cmdline).2 ≠ Control.fault →
      Step s { sh := (eval_parent s.sh pid bg cmdline).1,
               polling := (eval_parent s.sh pid bg cmdline).2.toPolling }
  | bgfg (s : Sys) (argv : List CStr) :
      s.polling = none →
      (do_bgfg s.sh argv).2 ≠ Control.fault →
      Step s { sh := (do_bgfg s.sh argv).1, polling := (do_bgfg s.sh argv).2.toPolling }
  | reaper (s : Sys) (pid : Int) (status : Status) (sh1 : Shell) :
      0 < pid → reap s.sh pid status = some sh1 →
      Step s { sh := sh1, polling := s.polling }
  | wake (s : Sys) (i : Nat) :
      s.polling = some i →
      (∀ j, s.sh.jobs.get? i = some j → j.state ≠ FG) →
      Step s { sh := s.sh, polling := none }

/-- The states the shell starts in: the table initialised, nextjid 1, nothing
printed, the main flow ready; verbose is as the command line set it. -/
def Initial (s : Sys) : Prop :=
  s.sh.jobs = initjobs zeroJobs ∧ s.sh.nextjid = 1 ∧ s.sh.out = [] ∧ s.polling = none

/-- The states reachable from an initial state. -/
def Reachable (s : Sys) : Prop :=
  ∃ s0, Initial s0 ∧ Relation.ReflTransGen Step s0 s

/-- The number of slots whose state is FG. -/
def countFG (jobs : List job_t) : Nat :=
  (jobs.filter (fun j => decide (j.state = FG))).length

/-- Call addjob for each triple (pid, state, command line) in order; the result
holds the return values of the calls and the shell they leave. -/
def addjobs (s : Shell) : List (Int × Int × String) → List Int × Shell
  | [] => ([], s)
  | c :: rest =>
    let r := addjob s c.1 c.2.1 c.2.2
    let rs := addjobs r.2 rest
    (r.1 :: rs.1, rs.2)

/-- Sixteen launches, with pids 1 to 16. -/
def sixteenCalls : List (Int × Int × String) :=
  (List.range 16).map (fun i => ((i : Int) + 1, BG, "job\n"))

/-- Every free slot (pid 0) is as clearjob leaves it. -/
def FreeCleared (jobs : List job_t) : Prop :=
  ∀ j ∈ jobs, j.pid = 0 → j = clearjob j

instance (jobs : List job_t) : Decidable (FreeCleared jobs) :=
  inferInstanceAs (Decidable (∀ j ∈ jobs, j.pid = 0 → j = clearjob j))

/-- The launches of a list of (pid, state, command line) as table operations. -/
def addOps (adds : List (Int × Int × String)) : List TableOp :=
  adds.map (fun c => TableOp.add c.1 c.2.1 c.2.2)

/-- The removals of a list of pids as table operations. -/
def delOps (dels : List Int) : List TableOp :=
  dels.map TableOp.del

/-- The shell after sixteen background launches (pids 1 to 16) on the
initialised table: every slot is live. -/
def fullShell : Shell := (addjobs initShell sixteenCalls).2

/-- The characters that the loop of do_bgfg visits: those from index 1 up to
the first one that is not above 0x20. -/
def scanned (arg2 : CStr) : CStr :=
  (arg2.drop 1).takeWhile (fun c => decide (c > 0x20))

/-- The words that do_bgfg takes for a pid: the first character is a digit and
every character that the loop visits is a digit. -/
def acceptedPid (arg2 : CStr) : Bool :=
  isDigit (charAt arg2 0) && (scanned arg2).all isDigit

/-- The words that do_bgfg takes for a job id: the first character is the
percent sign and every character that the loop visits is a digit. -/
def acceptedJid (arg2 : CStr) : Bool :=
  decide (charAt arg2 0 = 0x25) && (scanned arg2).all isDigit

/-- The selector syntax in the words of the specification, for a word without a
leading percent sign: the word is not empty and all its characters are decimal
digits. -/
def allDigits (arg2 : CStr) : Bool :=
  decide (cstr arg2 ≠ []) && (cstr arg2).all isDigit

/-- A table in which pid 1 is a stopped job with job id 1, all other slots
free. -/
def oneStopped : Shell :=
  { (addjob initShell 1 ST "prog\n").2 with out := [] }

/-- A table with three jobs: pid 11 running in background as job 1, pid 12
stopped as job 2, pid 13 running in background as job 3. -/
def threeJobs : Shell :=
  { jobs := [{ pid := 11, jid := 1, state := BG, cmdline := "a &\n" },
             { pid := 12, jid := 2, state := ST, cmdline := "b\n" },
             { pid := 13, jid := 3, state := BG, cmdline := "c &\n" }]
            ++ List.replicate 13 (clearjob { pid := 0, jid := 0, state := 0, cmdline := "" }),
    nextjid := 4, verbose := 0, out := [] }

/-- Every slot whose state is FG is the slot that waitfg polls; when waitfg
polls no slot, no slot is FG. -/
def FgOnlyAt (jobs : List job_t) (polling : Option Nat) : Prop :=
  ∀ k j, jobs.get? k = some j → j.state = FG → polling = some k

/-- The invariant of the step model: a free slot has job id 0, the pids of the
live slots are distinct, and only the polled slot can be FG. -/
def Inv (s : Sys) : Prop :=
  (∀ j ∈ s.sh.jobs, j.pid = 0 → j.jid = 0) ∧
  (livePids s.sh.jobs).Nodup ∧
  FgOnlyAt s.sh.jobs s.polling

/-- The state of the model after a background launch of pid 4 and then a
foreground launch of pid 5 on the initialised table. -/
def twoLaunches : Sys :=
  { sh := (eval_parent (eval_parent initShell 4 true "a &\n").1 5 false "b\n").1,
    polling := some 1 }

/-! ## The handlers of SIGINT and SIGTSTP -/

/-- The handler of SIGINT: send the signal along to the process group of the
foreground job, when fgpid returns a pid that is not 0. -/
def sigint_handler (s : Shell) (sig : Int) : Shell :=
  let pid_fg := fgpid s.jobs
  if pid_fg ≠ 0 then { s with out := s.out ++ [Event.kill (- pid_fg) sig] } else s

/-- The handler of SIGTSTP: send the signal along to the process group of the
foreground job, when fgpid returns a pid that is not 0. -/
def sigtstp_handler (s : Shell) (sig : Int) : Shell :=
  let pid_fg := fgpid s.jobs
  if pid_fg ≠ 0 then { s with out := s.out ++ [Event.kill (- pid_fg) sig] } else s

/-- Every slot whose state is FG holds a job: its pid is not 0. -/
def FgLive (jobs : List job_t) : Prop :=
  ∀ j ∈ jobs, j.state = FG → j.pid ≠ 0

instance (jobs : List job_t) : Decidable (FgLive jobs) :=
  inferInstanceAs (Decidable (∀ j ∈ jobs, j.state = FG → j.pid ≠ 0))

/-- Signal number of SIGINT (Linux value of the constant from signal.h). -/
def SIGINT : Int := 2

/-- Signal number of SIGTSTP (Linux value of the constant from signal.h). -/
def SIGTSTP : Int := 20

/-- The table with jobs 1, 2, 3 (pids 11, 12, 13) after fg of job 2: pid 12 is
the foreground job. -/
def threeJobsFg : Shell :=
  (do_bgfg threeJobs [ofString "fg", ofString "%2"]).1

end Tsh

/-! # Theorems -/

namespace Tsh

/-! ## Job ids of live jobs (C1) -/

/-- C1 (the code breaks it): job ids are not always distinct among live jobs.
From the initialised table with nextjid 1, fifteen launches (pids 1 to 15), the
removal of pid 2 and two more launches (pids 16 and 17), each added pid being
positive and not in the table, leave slot 0 (pid 1) and slot 15 (pid 17) both
live with job id 1: addjob resets nextjid to 1 once it passes MAXJOBS, while
job 1 is still in the table. -/
theorem c1_live_jobs_share_jid :
    freshAdds initShell wrapOps = true ∧
    (runOps initShell wrapOps).jobs.get? 0
      = some { pid := 1, jid := 1, state := BG, cmdline := "job\n" } ∧
    (runOps initShell wrapOps).jobs.get? 15
      = some { pid := 17, jid := 1, state := BG, cmdline := "job\n" } ∧
    ¬ (liveJids (runOps initShell wrapOps).jobs).Nodup := by
  decide

/-! ## Failure of addjob (C3) -/

theorem addjobScan_eq_none_iff (pid state jid : Int) (cmdline : String) (jobs : List job_t) :
    addjobScan pid state jid cmdline jobs = none ↔ ∀ j ∈ jobs, j.pid ≠ 0 := by
  induction jobs with
  | nil => simp [addjobScan]
  | cons j rest ih =>
    by_cases h : j.pid = 0
    · simp [addjobScan, h]
    · simp [addjobScan, h, ih]

theorem addjobScan_length {pid state jid : Int} {cmdline : String} {jobs jobs1 : List job_t}
    (h : addjobScan pid state jid cmdline jobs = some jobs1) : jobs1.length = jobs.length := by
  induction jobs generalizing jobs1 with
  | nil => simp [addjobScan] at h
  | cons j rest ih =>
    by_cases hj : j.pid = 0
    · simp [addjobScan, hj] at h
      subst h
      simp
    · simp [addjobScan, hj] at h
      obtain ⟨r, hr, rfl⟩ := h
      simp [ih hr]

theorem livePids_cons (j : job_t) (rest : List job_t) :
    livePids (j :: rest) = if j.pid = 0 then livePids rest else j.pid :: livePids rest := by
  by_cases h : j.pid = 0 <;> simp [livePids, List.filter_cons, h]

theorem addjobScan_livePids {pid state jid : Int} {cmdline : String} {jobs jobs1 : List job_t}
    (hp : pid ≠ 0) (h : addjobScan pid state jid cmdline jobs = some jobs1) :
    (livePids jobs1).Perm (pid :: livePids jobs) := by
  induction jobs generalizing jobs1 with
  | nil => simp [addjobScan] at h
  | cons j rest ih =>
    by_cases hj : j.pid = 0
    · simp [addjobScan, hj] at h
      subst h
      simp [livePids_cons, hj, hp]
    · simp [addjobScan, hj] at h
      obtain ⟨r, hr, rfl⟩ := h
      simp only [livePids_cons, hj, if_false]
      exact ((ih hr).cons j.pid).trans (List.Perm.swap _ _ _)

theorem livePids_length_le (jobs : List job_t) : (livePids jobs).length ≤ jobs.length := by
  simp [livePids, List.length_filter_le]

theorem livePids_length_eq_iff (jobs : List job_t) :
    (livePids jobs).length = jobs.length ↔ ∀ j ∈ jobs, j.pid ≠ 0 := by
  induction jobs with
  | nil => simp [livePids]
  | cons j rest ih =>
    have hle := livePids_length_le rest
    by_cases hj : j.pid = 0
    · simp only [livePids_cons, hj, if_true, List.length_cons, List.mem_cons, forall_eq_or_imp]
      constructor
      · intro h; omega
      · intro h; exact absurd rfl h.1
    · simp [livePids_cons, hj, ih]

theorem addjob_fst_eq_zero_iff (s : Shell) (pid state : Int) (cmdline : String) :
    (addjob s pid state cmdline).1 = 0 ↔ (pid < 1 ∨ ∀ j ∈ s.jobs, j.pid ≠ 0) := by
  unfold addjob
  by_cases hp : pid < 1
  · simp [hp]
  · simp only [hp, if_false, false_or]
    rw [← addjobScan_eq_none_iff pid state s.nextjid cmdline s.jobs]
    cases addjobScan pid state s.nextjid cmdline s.jobs <;> simp

theorem addjob_fst_eq_one_of_ne_zero (s : Shell) (pid state : Int) (cmdline : String)
    (h : (addjob s pid state cmdline).1 ≠ 0) : (addjob s pid state cmdline).1 = 1 := by
  unfold addjob at h ⊢
  by_cases hp : pid < 1
  · simp [hp] at h
  · simp only [hp, if_false] at h ⊢
    cases hs : addjobScan pid state s.nextjid cmdline s.jobs with
    | none => simp [hs] at h
    | some jobs1 => simp

theorem addjob_failed_frame (s : Shell) (pid state : Int) (cmdline : String)
    (h : (addjob s pid state cmdline).1 = 0) :
    (addjob s pid state cmdline).2.jobs = s.jobs ∧
    (addjob s pid state cmdline).2.nextjid = s.nextjid := by
  unfold addjob at h ⊢
  by_cases hp : pid < 1
  · simp [hp]
  · simp only [hp, if_false] at h ⊢
    cases hs : addjobScan pid state s.nextjid cmdline s.jobs with
    | none => simp
    | some jobs1 => simp [hs] at h

theorem addjob_ok_livePids (s : Shell) (pid state : Int) (cmdline : String)
    (h : (addjob s pid state cmdline).1 = 1) :
    (livePids (addjob s pid state cmdline).2.jobs).Perm (pid :: livePids s.jobs) ∧
    (addjob s pid state cmdline).2.jobs.length = s.jobs.length := by
  unfold addjob at h ⊢
  by_cases hp : pid < 1
  · simp [hp] at h
  · simp only [hp, if_false] at h ⊢
    cases hs : addjobScan pid state s.nextjid cmdline s.jobs with
    | none => simp [hs] at h
    | some jobs1 =>
      simp only []
      exact ⟨addjobScan_livePids (by omega) hs, addjobScan_length hs⟩

theorem addjobs_ok_livePids (calls : List (Int × Int × String)) (s : Shell)
    (hok : ∀ r ∈ (addjobs s calls).1, r = 1) :
    (livePids (addjobs s calls).2.jobs).length = (livePids s.jobs).length + calls.length ∧
    (addjobs s calls).2.jobs.length = s.jobs.length := by
  induction calls generalizing s with
  | nil => simp [addjobs]
  | cons c rest ih =>
    simp only [addjobs, List.mem_cons, forall_eq_or_imp] at hok ⊢
    obtain ⟨h1, h2⟩ := addjob_ok_livePids s c.1 c.2.1 c.2.2 hok.1
    obtain ⟨h3, h4⟩ := ih _ hok.2
    rw [h3, h4, h2, h1.length_eq]
    simp
    omega

theorem initjobs_zeroJobs_length : (initjobs zeroJobs).length = 16 := by decide

theorem livePids_initjobs_zeroJobs : livePids (initjobs zeroJobs) = [] := by decide

/-- C3: addjob returns 0 exactly when pid is below 1 or no slot of the table
has pid 0; a call that returns 0 leaves every slot and nextjid unchanged; and
after 16 successful calls of addjob on the initialised table a 17th call
returns 0 and leaves the table with its 16 entries as it was. -/
theorem addjob_fails_iff_and_keeps_table (s : Shell) (pid state : Int) (cmdline : String)
    (s0 : Shell) (calls : List (Int × Int × String))
    (h0 : s0.jobs = initjobs zeroJobs) (h16 : calls.length = 16)
    (hok : ∀ r ∈ (addjobs s0 calls).1, r = 1) :
    ((addjob s pid state cmdline).1 = 0 ↔ (pid < 1 ∨ ∀ j ∈ s.jobs, j.pid ≠ 0)) ∧
    ((addjob s pid state cmdline).1 = 0 →
      (addjob s pid state cmdline).2.jobs = s.jobs ∧
      (addjob s pid state cmdline).2.nextjid = s.nextjid) ∧
    ((addjob (addjobs s0 calls).2 pid state cmdline).1 = 0 ∧
      (addjob (addjobs s0 calls).2 pid state cmdline).2.jobs = (addjobs s0 calls).2.jobs ∧
      (addjob (addjobs s0 calls).2 pid state cmdline).2.nextjid = (addjobs s0 calls).2.nextjid ∧
      (addjobs s0 calls).2.jobs.length = 16) := by
  refine ⟨addjob_fst_eq_zero_iff s pid state cmdline, addjob_failed_frame s pid state cmdline, ?_⟩
  obtain ⟨h1, h2⟩ := addjobs_ok_livePids calls s0 hok
  rw [h0, livePids_initjobs_zeroJobs] at h1
  rw [h0, initjobs_zeroJobs_length] at h2
  have hfull : ∀ j ∈ (addjobs s0 calls).2.jobs, j.pid ≠ 0 := by
    rw [← livePids_length_eq_iff, h1, h2, h16]; rfl
  have hz : (addjob (addjobs s0 calls).2 pid state cmdline).1 = 0 :=
    (addjob_fst_eq_zero_iff _ pid state cmdline).2 (Or.inr hfull)
  obtain ⟨h3, h4⟩ := addjob_failed_frame _ pid state cmdline hz
  exact ⟨hz, h3, h4, h2⟩

/-- Witness for C3: sixteen launches with pids 1 to 16 on the initialised
table all succeed, and a launch of pid 17 then fails and changes nothing. -/
theorem addjob_fails_iff_and_keeps_table_witness :
    (∀ r ∈ (addjobs initShell sixteenCalls).1, r = 1) ∧
    (addjob (addjobs initShell sixteenCalls).2 17 BG "job\n").1 = 0 ∧
    (addjob (addjobs initShell sixteenCalls).2 17 BG "job\n").2.jobs
      = (addjobs initShell sixteenCalls).2.jobs :=
  ⟨by decide,
   (addjob_fails_iff_and_keeps_table initShell 17 BG "job\n" initShell sixteenCalls rfl
      (by decide) (by decide)).2.2.1,
   (addjob_fails_iff_and_keeps_table initShell 17 BG "job\n" initShell sixteenCalls rfl
      (by decide) (by decide)).2.2.2.1⟩

/-! ## Launching jobs and letting them all exit (C4) -/

theorem addjobScan_freeCleared {pid state jid : Int} {cmdline : String} {jobs jobs1 : List job_t}
    (hp : pid ≠ 0) (hc : FreeCleared jobs)
    (h : addjobScan pid state jid cmdline jobs = some jobs1) : FreeCleared jobs1 := by
  induction jobs generalizing jobs1 with
  | nil => simp [addjobScan] at h
  | cons j rest ih =>
    have hrest : FreeCleared rest := fun x hx => hc x (List.mem_cons_of_mem _ hx)
    by_cases hj : j.pid = 0
    · simp [addjobScan, hj] at h
      subst h
      intro x hx hx0
      rcases List.mem_cons.1 hx with rfl | hx
      · exact absurd hx0 hp
      · exact hrest x hx hx0
    · simp [addjobScan, hj] at h
      obtain ⟨r, hr, rfl⟩ := h
      intro x hx hx0
      rcases List.mem_cons.1 hx with rfl | hx
      · exact absurd hx0 hj
      · exact ih hrest hr x hx hx0

theorem deletejobScan_of_mem {pid : Int} {jobs : List job_t} (hp : pid ≠ 0)
    (hc : FreeCleared jobs) (hm : pid ∈ livePids jobs) :
    ∃ jobs1, deletejobScan pid jobs = some jobs1 ∧
      livePids jobs1 = (livePids jobs).erase pid ∧ FreeCleared jobs1 ∧
      jobs1.length = jobs.length := by
  induction jobs with
  | nil => simp [livePids] at hm
  | cons j rest ih =>
    have hrest : FreeCleared rest := fun x hx => hc x (List.mem_cons_of_mem _ hx)
    by_cases hj : j.pid = pid
    · refine ⟨clearjob j :: rest, by simp [deletejobScan, hj], ?_, ?_, by simp⟩
      · subst hj
        simp [livePids_cons, hp, clearjob]
      · intro x hx hx0
        rcases List.mem_cons.1 hx with rfl | hx
        · rfl
        · exact hrest x hx hx0
    · have hm1 : pid ∈ livePids rest := by
        rw [livePids_cons] at hm
        by_cases hj0 : j.pid = 0
        · simpa [hj0] using hm
        · simp only [hj0, if_false, List.mem_cons] at hm
          rcases hm with h | h
          · exact absurd h.symm hj
          · exact h
      obtain ⟨r, hr, hl, hcr, hlen⟩ := ih hrest hm1
      refine ⟨j :: r, by simp [deletejobScan, hj, hr], ?_, ?_, by simp [hlen]⟩
      · by_cases hj0 : j.pid = 0
        · simp [livePids_cons, hj0, hl]
        · simp only [livePids_cons, hj0, if_false, hl]
          rw [List.erase_cons_tail]
          simpa using hj
      · intro x hx hx0
        rcases List.mem_cons.1 hx with rfl | hx
        · exact hc x (List.mem_cons_self _ _) hx0
        · exact hcr x hx hx0

theorem maxjid_foldl_of_cleared (jobs : List job_t) (hz : ∀ j ∈ jobs, j.jid = 0) (m : Int)
    (hm : 0 ≤ m) :
    jobs.foldl (fun max j => if j.jid > max then j.jid else max) m = m := by
  induction jobs generalizing m with
  | nil => rfl
  | cons j rest ih =>
    have hj : j.jid = 0 := hz j (List.mem_cons_self _ _)
    have hn : ¬ (j.jid > m) := by rw [hj]; omega
    simp only [List.foldl_cons, hn, if_false]
    exact ih (fun x hx => hz x (List.mem_cons_of_mem _ hx)) m hm

theorem all_cleared_of_no_live {jobs : List job_t} (hc : FreeCleared jobs)
    (hl : livePids jobs = []) : ∀ j ∈ jobs, j = clearjob j := by
  induction jobs with
  | nil => simp
  | cons j rest ih =>
    have hrest : FreeCleared rest := fun x hx => hc x (List.mem_cons_of_mem _ hx)
    rw [livePids_cons] at hl
    by_cases hj : j.pid = 0
    · simp only [hj, if_true] at hl
      intro x hx
      rcases List.mem_cons.1 hx with rfl | hx
      · exact hc x (List.mem_cons_self _ _) hj
      · exact ih hrest hl x hx
    · simp [hj] at hl

theorem runOps_append (s : Shell) (a b : List TableOp) :
    runOps s (a ++ b) = runOps (runOps s a) b := by
  simp [runOps, List.foldl_append]

theorem runOps_addOps (adds : List (Int × Int × String)) (s : Shell)
    (hc : FreeCleared s.jobs) (hpos : ∀ c ∈ adds, 0 < c.1)
    (hroom : (livePids s.jobs).length + adds.length ≤ s.jobs.length) :
    (livePids (runOps s (addOps adds)).jobs).Perm
      ((adds.map (fun c => c.1)).reverse ++ livePids s.jobs) ∧
    FreeCleared (runOps s (addOps adds)).jobs ∧
    (runOps s (addOps adds)).jobs.length = s.jobs.length ∧
    (adds = [] → (runOps s (addOps adds)).nextjid = s.nextjid) := by
  induction adds generalizing s with
  | nil => simp [runOps, addOps, hc]
  | cons c rest ih =>
    have hc1 : 0 < c.1 := hpos c (List.mem_cons_self _ _)
    have hfree : ¬ (∀ j ∈ s.jobs, j.pid ≠ 0) := by
      rw [← livePids_length_eq_iff]
      simp only [List.length_cons] at hroom
      omega
    have hne : (addjob s c.1 c.2.1 c.2.2).1 ≠ 0 := by
      rw [Ne, addjob_fst_eq_zero_iff]
      push_neg
      exact ⟨by omega, by push_neg at hfree; exact hfree⟩
    have hone := addjob_fst_eq_one_of_ne_zero s c.1 c.2.1 c.2.2 hne
    obtain ⟨hperm, hlen⟩ := addjob_ok_livePids s c.1 c.2.1 c.2.2 hone
    have hc2 : FreeCleared (addjob s c.1 c.2.1 c.2.2).2.jobs := by
      have hp : ¬ c.1 < 1 := by omega
      unfold addjob
      simp only [hp, if_false]
      cases hs : addjobScan c.1 c.2.1 s.nextjid c.2.2 s.jobs with
      | none =>
        exact absurd ((addjobScan_eq_none_iff _ _ _ _ _).1 hs) hfree
      | some jobs1 => exact addjobScan_freeCleared (by omega) hc hs
    have hroom2 : (livePids (addjob s c.1 c.2.1 c.2.2).2.jobs).length + rest.length
        ≤ (addjob s c.1 c.2.1 c.2.2).2.jobs.length := by
      rw [hperm.length_eq, hlen]
      simp only [List.length_cons] at hroom ⊢
      omega
    obtain ⟨h1, h2, h3, _⟩ := ih (addjob s c.1 c.2.1 c.2.2).2 hc2
      (fun x hx => hpos x (List.mem_cons_of_mem _ hx)) hroom2
    have hrun : runOps s (addOps (c :: rest))
        = runOps (addjob s c.1 c.2.1 c.2.2).2 (addOps rest) := by
      simp [runOps, addOps, runOp]
    rw [hrun]
    refine ⟨?_, h2, by rw [h3, hlen], by simp⟩
    refine h1.trans ?_
    simp only [List.map_cons, List.reverse_cons, List.append_assoc, List.singleton_append]
    exact List.Perm.append_left _ hperm

theorem runOps_delOps (dels : List Int) (s : Shell)
    (hc : FreeCleared s.jobs) (hpos : ∀ d ∈ dels, 0 < d)
    (hperm : (livePids s.jobs).Perm dels) :
    livePids (runOps s (delOps dels)).jobs = [] ∧
    FreeCleared (runOps s (delOps dels)).jobs ∧
    (runOps s (delOps dels)).jobs.length = s.jobs.length ∧
    (dels ≠ [] →
      (runOps s (delOps dels)).nextjid = maxjid (runOps s (delOps dels)).jobs + 1) := by
  induction dels generalizing s with
  | nil =>
    refine ⟨?_, hc, rfl, by simp⟩
    simpa [runOps, delOps] using hperm.eq_nil
  | cons d rest ih =>
    have hd : 0 < d := hpos d (List.mem_cons_self _ _)
    have hm : d ∈ livePids s.jobs := hperm.symm.subset (List.mem_cons_self _ _)
    obtain ⟨jobs1, hs, hl, hc1, hlen⟩ := deletejobScan_of_mem (by omega) hc hm
    have hdel : (deletejob s d).2 = { s with jobs := jobs1, nextjid := maxjid jobs1 + 1 } := by
      have hp : ¬ d < 1 := by omega
      simp [deletejob, hp, hs]
    have hrun : runOps s (delOps (d :: rest)) = runOps (deletejob s d).2 (delOps rest) := by
      simp [runOps, delOps, runOp]
    have hperm1 : (livePids (deletejob s d).2.jobs).Perm rest := by
      rw [hdel]
      simp only [hl]
      have := hperm.erase d
      simpa using this
    obtain ⟨h1, h2, h3, h4⟩ := ih (deletejob s d).2 (by rw [hdel]; exact hc1)
      (fun x hx => hpos x (List.mem_cons_of_mem _ hx)) hperm1
    rw [hrun]
    refine ⟨h1, h2, by rw [h3, hdel]; exact hlen, fun _ => ?_⟩
    by_cases hr : rest = []
    · subst hr
      simp [runOps, delOps, hdel]
    · exact h4 hr

theorem freeCleared_initjobs_zeroJobs : FreeCleared (initjobs zeroJobs) := by
  intro j hj _
  simp only [initjobs, List.mem_map] at hj
  obtain ⟨a, _, rfl⟩ := hj
  rfl

/-- C4: for every list of at most 16 distinct positive pids and every order of
removal, calling addjob for each pid on the initialised table with nextjid 1
and then deletejob for each of them leaves every slot cleared (pid 0, jid 0,
state UNDEF, empty command line), the table with its 16 slots, and nextjid
equal to 1. -/
theorem add_all_then_delete_all_resets (s0 : Shell) (adds : List (Int × Int × String))
    (dels : List Int)
    (h0 : s0.jobs = initjobs zeroJobs) (h1 : s0.nextjid = 1)
    (hN : adds.length ≤ 16) (hpos : ∀ c ∈ adds, 0 < c.1)
    (_hnd : (adds.map (fun c => c.1)).Nodup)
    (hperm : dels.Perm (adds.map (fun c => c.1))) :
    (∀ j ∈ (runOps s0 (addOps adds ++ delOps dels)).jobs,
      j.pid = 0 ∧ j.jid = 0 ∧ j.state = UNDEF ∧ j.cmdline = "") ∧
    (runOps s0 (addOps adds ++ delOps dels)).jobs.length = 16 ∧
    (runOps s0 (addOps adds ++ delOps dels)).nextjid = 1 := by
  have hc0 : FreeCleared s0.jobs := by rw [h0]; exact freeCleared_initjobs_zeroJobs
  have hroom : (livePids s0.jobs).length + adds.length ≤ s0.jobs.length := by
    rw [h0, livePids_initjobs_zeroJobs, initjobs_zeroJobs_length]
    simpa using hN
  obtain ⟨a1, a2, a3, a4⟩ := runOps_addOps adds s0 hc0 hpos hroom
  have hposd : ∀ d ∈ dels, 0 < d := by
    intro d hd
    obtain ⟨c, hc, rfl⟩ := List.mem_map.1 (hperm.subset hd)
    exact hpos c hc
  have hlive : (livePids (runOps s0 (addOps adds)).jobs).Perm dels := by
    refine a1.trans ?_
    rw [h0, livePids_initjobs_zeroJobs, List.append_nil]
    exact (List.reverse_perm _).trans hperm.symm
  obtain ⟨d1, d2, d3, d4⟩ := runOps_delOps dels (runOps s0 (addOps adds)) a2 hposd hlive
  rw [runOps_append]
  have hall := all_cleared_of_no_live d2 d1
  have hjid : ∀ j ∈ (runOps (runOps s0 (addOps adds)) (delOps dels)).jobs, j.jid = 0 := by
    intro j hj
    rw [hall j hj]
    rfl
  refine ⟨?_, by rw [d3, a3, h0, initjobs_zeroJobs_length], ?_⟩
  · intro j hj
    rw [hall j hj]
    exact ⟨rfl, rfl, rfl, rfl⟩
  · by_cases hd : dels = []
    · subst hd
      have ha : adds = [] := by
        have := hperm.symm.eq_nil
        simpa using this
      simp only [delOps, List.map_nil, runOps, List.foldl_nil]
      have := a4 ha
      simp only [runOps] at this
      rw [this, h1]
    · rw [d4 hd]
      have := maxjid_foldl_of_cleared _ hjid 0 (le_refl 0)
      simp only [maxjid, this]
      rfl

/-- Witness for C4: three background jobs with pids 7, 3 and 9 are launched on
the initialised table and exit in the order 3, 9, 7. -/
theorem add_all_then_delete_all_resets_witness :
    (runOps initShell (addOps [(7, BG, "a\n"), (3, BG, "b\n"), (9, BG, "c\n")]
      ++ delOps [3, 9, 7])).jobs.length = 16 ∧
    (runOps initShell (addOps [(7, BG, "a\n"), (3, BG, "b\n"), (9, BG, "c\n")]
      ++ delOps [3, 9, 7])).nextjid = 1 :=
  (add_all_then_delete_all_resets initShell [(7, BG, "a\n"), (3, BG, "b\n"), (9, BG, "c\n")]
    [3, 9, 7] rfl rfl (by decide) (by decide) (by decide) (by decide)).2

/-! ## Launching on a full table (C5) -/

theorem waitfg_fault_of_absent (jobs : List job_t) (pid : Int) (hp : 0 < pid)
    (h : ∀ j ∈ jobs, j.pid ≠ pid) : waitfg jobs pid = Control.fault := by
  have hn : firstSlot (fun j => decide (j.pid = pid)) jobs = none := by
    induction jobs with
    | nil => rfl
    | cons j rest ih =>
      have hj : j.pid ≠ pid := h j (List.mem_cons_self _ _)
      simp [firstSlot, hj, ih (fun x hx => h x (List.mem_cons_of_mem _ hx))]
  have h0 : pid ≠ 0 := by omega
  have h1 : ¬ pid < 1 := by omega
  simp [waitfg, getjobpid, h0, h1, hn]

/-- A foreground launch on a full table always ends in the NULL dereference of
waitfg: addjob fails, so getjobpid finds no slot for the new pid. -/
theorem eval_parent_full_foreground_faults (s : Shell) (pid : Int) (cmdline : String)
    (hp : 0 < pid) (hfull : ∀ j ∈ s.jobs, j.pid ≠ 0) (hnew : ∀ j ∈ s.jobs, j.pid ≠ pid) :
    (eval_parent s pid false cmdline).2 = Control.fault := by
  have hz : (addjob s pid FG cmdline).1 = 0 :=
    (addjob_fst_eq_zero_iff s pid FG cmdline).2 (Or.inr hfull)
  have hj := (addjob_failed_frame s pid FG cmdline hz).1
  simp only [eval_parent, Bool.false_eq_true, if_false, Bool.not_false, if_true]
  rw [hj]
  exact waitfg_fault_of_absent s.jobs pid hp hnew

/-- C5 (the code breaks it): on the full table left by sixteen launches, the
parent part of eval for a foreground command with the new pid 17 reports
the failure and then dereferences NULL in waitfg, since getjobpid finds no slot
for pid 17; for a background command it reports the failure, prints the job
line with job id 0 and returns with the table unchanged. -/
theorem c5_full_table_foreground_launch_faults :
    (∀ j ∈ fullShell.jobs, j.pid ≠ 0) ∧
    eval_parent fullShell 17 false "prog\n"
      = ({ fullShell with out := [Event.print "Tried to create too many jobs\n"] },
          Control.fault) ∧
    eval_parent fullShell 17 true "prog &\n"
      = ({ fullShell with out := [Event.print "Tried to create too many jobs\n",
            Event.print "[0] (17) prog &\n"] }, Control.returned) := by
  decide

/-! ## The reaper and a pid that is not in the table (C6) -/

/-- C6 (the code breaks it): on the full table left by sixteen launches, a
child with pid 17 that no slot holds is reported stopped by signal 20, and the
reaper dereferences the NULL that getjobpid returns; for the same child
reported exited or killed the reaper completes and leaves the table and
nextjid unchanged. -/
theorem c6_reaper_faults_on_unknown_stopped_child :
    (∀ j ∈ fullShell.jobs, j.pid ≠ 17) ∧
    reap fullShell 17 (Status.stopped 20) = none ∧
    sigchld_handler fullShell [(17, Status.stopped 20)] = none ∧
    reap fullShell 17 (Status.exited 0) = some fullShell ∧
    reap fullShell 17 (Status.signaled 9)
      = some { fullShell with out := [Event.print "Job [0] (17) terminated by signal 9\n"] } := by
  decide

/-- The reaper dereferences NULL for every stopped child whose pid no slot
holds, whatever the table. -/
theorem reap_stopped_unknown_faults (s : Shell) (pid sig : Int)
    (h : ∀ j ∈ s.jobs, j.pid ≠ pid) : reap s pid (Status.stopped sig) = none := by
  have hn : firstSlot (fun j => decide (j.pid = pid)) s.jobs = none := by
    generalize s.jobs = jobs at h
    induction jobs with
    | nil => rfl
    | cons j rest ih =>
      have hj : j.pid ≠ pid := h j (List.mem_cons_self _ _)
      simp [firstSlot, hj, ih (fun x hx => h x (List.mem_cons_of_mem _ hx))]
  by_cases h1 : pid < 1 <;> simp [reap, getjobpid, h1, hn]

/-! ## The conversion of the selector to a number -/

/-- The model of atoi on sample words: plain digits, digits followed by other
characters, white space and a sign, a value above the range of int (low 32
bits kept) and values beyond the range of long (strtol saturates, so the
result is -1 or 0). -/
theorem atoi_samples :
    atoi (ofString "12") = 12 ∧
    atoi (ofString "1 x") = 1 ∧
    atoi (ofString " \t-42x") = -42 ∧
    atoi (ofString "") = 0 ∧
    atoi (ofString "4294967308") = 12 ∧
    atoi (ofString "99999999999999999999") = -1 ∧
    atoi (ofString "18446744073709551628") = -1 ∧
    atoi (ofString "-99999999999999999999") = 0 := by
  decide

/-! ## The selector of bg and fg (C7) -/

theorem scanArg_eq (a b : Bool) (l : CStr) :
    scanArg a b l =
      (a && (l.takeWhile (fun c => decide (c > 0x20))).all isDigit,
       b && (l.takeWhile (fun c => decide (c > 0x20))).all isDigit) := by
  induction l generalizing a b with
  | nil => simp [scanArg]
  | cons c rest ih =>
    by_cases h1 : c > 0x20
    · by_cases h2 : c < 0x30 ∨ c > 0x39
      · have hd : isDigit c = false := by
          simp only [isDigit, Bool.and_eq_false_iff, decide_eq_false_iff_not]
          omega
        simp [scanArg, h1, h2, ih, hd, List.takeWhile_cons]
      · have hd : isDigit c = true := by
          simp only [isDigit, Bool.and_eq_true, decide_eq_true_eq]
          omega
        simp [scanArg, h1, h2, ih, hd, List.takeWhile_cons]
    · simp [scanArg, h1, List.takeWhile_cons]

theorem selector_eq (arg2 : CStr) : selector arg2 = (acceptedJid arg2, acceptedPid arg2) := by
  simp only [selector, scanArg_eq, acceptedJid, acceptedPid, scanned, isDigit, ge_iff_le]

theorem do_bgfg_rejected (s : Shell) (arg1 arg2 : CStr) (more : List CStr)
    (hp : acceptedPid arg2 = false) (hj : acceptedJid arg2 = false) :
    do_bgfg s (arg1 :: arg2 :: more) =
      ({ s with out := s.out ++ [Event.print
          (str arg1 ++ ": argument must be a PID or %jobid\n")] }, Control.returned) := by
  simp [do_bgfg, selector_eq, hp, hj]

theorem acceptedJid_false_of_first {arg2 : CStr} (h : charAt arg2 0 ≠ 0x25) :
    acceptedJid arg2 = false := by
  simp [acceptedJid, h]

theorem takeWhile_above_space_digits (l : CStr)
    (h : ∀ c ∈ l.takeWhile (fun c => decide (c ≠ 0)), isDigit c = true) :
    ∀ c ∈ l.takeWhile (fun c => decide (c > 0x20)), isDigit c = true := by
  induction l with
  | nil => simp
  | cons a rest ih =>
    by_cases ha : a > 0x20
    · have ha0 : a ≠ 0 := by omega
      simp only [List.takeWhile_cons, ha0, ne_eq, not_false_eq_true, decide_True, if_true,
        List.mem_cons, forall_eq_or_imp] at h
      simp only [List.takeWhile_cons, ha, decide_True, if_true, List.mem_cons, forall_eq_or_imp]
      exact ⟨h.1, ih h.2⟩
    · simp [List.takeWhile_cons, ha]

/-- The half of the selector syntax of the specification that the code keeps:
a word that is not empty and all decimal digits is taken for a pid. -/
theorem allDigits_taken_for_pid (arg2 : CStr) (h : allDigits arg2 = true) :
    (selector arg2).2 = true := by
  rw [selector_eq]
  cases arg2 with
  | nil => simp [allDigits, cstr] at h
  | cons a rest =>
    by_cases ha : a = 0
    · simp [allDigits, cstr, ha] at h
    · simp only [allDigits, cstr, List.takeWhile_cons, ha, ne_eq, not_false_eq_true,
        decide_True, if_true, Bool.and_eq_true, decide_eq_true_eq, List.all_cons] at h
      have hrest := takeWhile_above_space_digits rest (by
        intro c hc
        exact List.all_eq_true.1 h.2.2 c hc)
      simp only [acceptedPid, charAt, List.getD_cons_zero, scanned, List.drop_succ_cons,
        List.drop_zero, Bool.and_eq_true, List.all_eq_true]
      exact ⟨h.2.1, hrest⟩

/-- C7 (as the code has it): for every word given to bg or fg that does not
begin with the percent sign, do_bgfg takes the word for a pid exactly when its
first character is a decimal digit and every character after it, up to the
first character that is not above 0x20 or the end of the word, is a decimal
digit; every other such word is rejected with the message that the argument
must be a PID or %jobid, and the result is the same whatever the table holds:
no job is looked up and the table and nextjid stay as they were. -/
theorem selector_takes_pid_iff (arg2 : CStr) (h : charAt arg2 0 ≠ 0x25) :
    ((selector arg2).2 = true ↔
      (isDigit (charAt arg2 0) = true ∧ ∀ c ∈ scanned arg2, isDigit c = true)) ∧
    ((selector arg2).2 = false →
      ∀ (s : Shell) (arg1 : CStr) (more : List CStr),
        do_bgfg s (arg1 :: arg2 :: more) =
          ({ s with out := s.out ++ [Event.print
              (str arg1 ++ ": argument must be a PID or %jobid\n")] }, Control.returned)) := by
  rw [selector_eq]
  constructor
  · simp [acceptedPid, List.all_eq_true]
  · intro hp s arg1 more
    exact do_bgfg_rejected s arg1 arg2 more hp (acceptedJid_false_of_first h)

/-- Witness for C7: the word abc does not begin with the percent sign, is not
taken for a pid, and fg abc is rejected on the initialised table. -/
theorem selector_takes_pid_iff_witness :
    charAt (ofString "abc") 0 ≠ 0x25 ∧
    do_bgfg initShell [ofString "fg", ofString "abc"] =
      ({ initShell with out := [Event.print "fg: argument must be a PID or %jobid\n"] },
        Control.returned) :=
  ⟨by decide,
   (selector_takes_pid_iff (ofString "abc") (by decide)).2 (by decide) initShell
      (ofString "fg") []⟩

/-- C7 as stated fails: the word made of the digit 1, a space and the letter x
(typed as a quoted argument) does not begin with the percent sign and is not
all decimal digits, yet do_bgfg takes it for the pid 1 and looks that pid up:
on the initialised table the answer is that there is no such process, not that
the argument is malformed. -/
theorem c7_word_with_space_taken_for_pid :
    charAt (ofString "1 x") 0 ≠ 0x25 ∧
    allDigits (ofString "1 x") = false ∧
    (selector (ofString "1 x")).2 = true ∧
    do_bgfg initShell [ofString "fg", ofString "1 x"] =
      ({ initShell with out := [Event.print "(1): No such process\n"] },
        Control.returned) := by
  decide

/-! ## User-input errors of bg and fg (C8) -/

theorem firstSlot_eq_none {test : job_t → Bool} {jobs : List job_t}
    (h : ∀ j ∈ jobs, test j = false) : firstSlot test jobs = none := by
  induction jobs with
  | nil => rfl
  | cons j rest ih =>
    simp [firstSlot, h j (List.mem_cons_self _ _),
      ih (fun x hx => h x (List.mem_cons_of_mem _ hx))]

theorem getjobpid_eq_none_of_not_live {jobs : List job_t} {pid : Int}
    (h : ∀ j ∈ jobs, j.pid ≠ 0 → j.pid ≠ pid) : getjobpid jobs pid = none := by
  unfold getjobpid
  by_cases hp : pid < 1
  · simp [hp]
  · simp only [hp, if_false]
    apply firstSlot_eq_none
    intro j hj
    have : j.pid ≠ pid := by
      by_cases h0 : j.pid = 0
      · omega
      · exact h j hj h0
    simpa using this

theorem getjobjid_eq_none_of_no_slot {jobs : List job_t} {jid : Int}
    (h : jid < 1 ∨ ∀ j ∈ jobs, j.jid ≠ jid) : getjobjid jobs jid = none := by
  unfold getjobjid
  by_cases hp : jid < 1
  · simp [hp]
  · simp only [hp, if_false]
    apply firstSlot_eq_none
    intro j hj
    have : j.jid ≠ jid := by
      rcases h with h | h
      · exact absurd h hp
      · exact h j hj
    simpa using this

theorem getjobjid_eq_none_of_not_live {jobs : List job_t} {jid : Int}
    (hfree : ∀ j ∈ jobs, j.pid = 0 → j.jid = 0) (h : ∀ j ∈ jobs, j.pid ≠ 0 → j.jid ≠ jid) :
    getjobjid jobs jid = none := by
  by_cases hp : jid < 1
  · exact getjobjid_eq_none_of_no_slot (Or.inl hp)
  · refine getjobjid_eq_none_of_no_slot (Or.inr ?_)
    intro j hj
    by_cases h0 : j.pid = 0
    · have := hfree j hj h0
      omega
    · exact h j hj h0

/-- C8 (as the code has it): for every table and every bg or fg invocation, if
the selector is missing, or is rejected by the scan of do_bgfg (neither taken
for a pid nor for a job id), or is taken for a pid that no live slot holds, or
is taken for a job id that no live slot holds, then do_bgfg only prints the
message of that case and returns: no signal is sent, there is no wait, and
every slot of the table and nextjid are unchanged.  The job id case is stated
twice: in the words above for a table whose free slots hold job id 0 (every
reachable state, see freeJid_reachable), and for any table at all when the
job id is below 1 or no slot holds it. -/
theorem do_bgfg_errors_change_nothing (s : Shell) (arg1 arg2 : CStr) (more : List CStr) :
    do_bgfg s [arg1] =
      ({ s with out := s.out ++ [Event.print
          (str arg1 ++ " command requires PID or %jobid argument\n")] }, Control.returned) ∧
    (acceptedPid arg2 = false → acceptedJid arg2 = false →
      do_bgfg s (arg1 :: arg2 :: more) =
        ({ s with out := s.out ++ [Event.print
            (str arg1 ++ ": argument must be a PID or %jobid\n")] }, Control.returned)) ∧
    (acceptedPid arg2 = true → (∀ j ∈ s.jobs, j.pid ≠ 0 → j.pid ≠ atoi arg2) →
      do_bgfg s (arg1 :: arg2 :: more) =
        ({ s with out := s.out ++ [Event.print
            ("(" ++ toString (atoi arg2) ++ "): No such process\n")] }, Control.returned)) ∧
    (acceptedJid arg2 = true → (∀ j ∈ s.jobs, j.pid = 0 → j.jid = 0) →
      (∀ j ∈ s.jobs, j.pid ≠ 0 → j.jid ≠ atoi (arg2.drop 1)) →
      do_bgfg s (arg1 :: arg2 :: more) =
        ({ s with out := s.out ++ [Event.print (str arg2 ++ ": No such job\n")] },
          Control.returned)) ∧
    (acceptedJid arg2 = true →
      (atoi (arg2.drop 1) < 1 ∨ ∀ j ∈ s.jobs, j.jid ≠ atoi (arg2.drop 1)) →
      do_bgfg s (arg1 :: arg2 :: more) =
        ({ s with out := s.out ++ [Event.print (str arg2 ++ ": No such job\n")] },
          Control.returned)) := by
  have hpj : acceptedJid arg2 = true → acceptedPid arg2 = false := by
    intro hj
    simp only [acceptedJid, Bool.and_eq_true, decide_eq_true_eq] at hj
    simp [acceptedPid, isDigit, hj.1]
  refine ⟨rfl, do_bgfg_rejected s arg1 arg2 more, ?_, ?_, ?_⟩
  · intro hp hno
    simp [do_bgfg, selector_eq, hp, getjobpid_eq_none_of_not_live hno]
  · intro hj hfree hno
    have hn := getjobjid_eq_none_of_not_live hfree hno
    simp only [do_bgfg, selector_eq, hpj hj, hj, hn, Bool.false_eq_true, if_false, if_true]
  · intro hj hno
    have hn := getjobjid_eq_none_of_no_slot hno
    simp only [do_bgfg, selector_eq, hpj hj, hj, hn, Bool.false_eq_true, if_false, if_true]

/-- Witness for C8: on the table that holds the single job 1 with pid 1, the
free slots hold job id 0, and fg of the job id 5 that no live slot holds only
prints the message; so does fg of a number beyond the range of long, for
which atoi gives -1. -/
theorem do_bgfg_errors_change_nothing_witness :
    (∀ j ∈ oneStopped.jobs, j.pid = 0 → j.jid = 0) ∧
    do_bgfg oneStopped [ofString "fg", ofString "%5"] =
      ({ oneStopped with out := [Event.print "%5: No such job\n"] }, Control.returned) ∧
    do_bgfg oneStopped [ofString "fg", ofString "99999999999999999999"] =
      ({ oneStopped with out := [Event.print "(-1): No such process\n"] },
        Control.returned) :=
  ⟨by decide,
   (do_bgfg_errors_change_nothing oneStopped (ofString "fg") (ofString "%5") []).2.2.2.1
      (by decide) (by decide) (by decide),
   (do_bgfg_errors_change_nothing oneStopped (ofString "fg")
      (ofString "99999999999999999999") []).2.2.1 (by decide) (by decide)⟩

/-- Selectors whose number is beyond the range of long, on the table with jobs
1, 2, 3 (pids 11, 12, 13): atoi gives -1 (strtol saturates), so bg of
18446744073709551628 finds no process and fg of the job id
18446744073709551617 finds no job, and nothing changes. -/
theorem do_bgfg_beyond_long_samples :
    do_bgfg threeJobs [ofString "bg", ofString "18446744073709551628"] =
      ({ threeJobs with out := [Event.print "(-1): No such process\n"] },
        Control.returned) ∧
    do_bgfg threeJobs [ofString "fg", ofString "%18446744073709551617"] =
      ({ threeJobs with out := [Event.print "%18446744073709551617: No such job\n"] },
        Control.returned) := by
  decide

/-- C8 as stated fails: with pid 1 a stopped job, the invocation of bg with the
word made of the digit 1, a space and the letter x has a selector that is not
all decimal digits and has no leading percent sign, yet do_bgfg does not
reject it: it sets the job to BG, prints its job line and sends SIGCONT to the
process group of pid 1. -/
theorem c8_malformed_selector_changes_state :
    charAt (ofString "1 x") 0 ≠ 0x25 ∧
    allDigits (ofString "1 x") = false ∧
    oneStopped.jobs.get? 0 = some { pid := 1, jid := 1, state := ST, cmdline := "prog\n" } ∧
    do_bgfg oneStopped [ofString "bg", ofString "1 x"] =
      ({ oneStopped with
          jobs := setState BG 0 oneStopped.jobs,
          out := [Event.print "[1] (1) prog\n", Event.kill (-1) SIGCONT] },
        Control.returned) ∧
    (do_bgfg oneStopped [ofString "bg", ofString "1 x"]).1.jobs.get? 0
      = some { pid := 1, jid := 1, state := BG, cmdline := "prog\n" } := by
  decide

/-! ## The reaper and a known child (C9) -/

theorem firstSlot_append {test : job_t → Bool} (front : List job_t) (J : job_t)
    (back : List job_t) (hfront : ∀ j ∈ front, test j = false) (hJ : test J = true) :
    firstSlot test (front ++ J :: back) = some front.length := by
  induction front with
  | nil => simp [firstSlot, hJ]
  | cons j rest ih =>
    simp [firstSlot, hfront j (List.mem_cons_self _ _),
      ih (fun x hx => hfront x (List.mem_cons_of_mem _ hx))]

theorem setState_append (st : Int) (front : List job_t) (J : job_t) (back : List job_t) :
    setState st front.length (front ++ J :: back) = front ++ { J with state := st } :: back := by
  induction front with
  | nil => rfl
  | cons j rest ih => simp [setState, ih]

theorem deletejobScan_append (pid : Int) (front : List job_t) (J : job_t) (back : List job_t)
    (hfront : ∀ j ∈ front, j.pid ≠ pid) (hJ : J.pid = pid) :
    deletejobScan pid (front ++ J :: back) = some (front ++ clearjob J :: back) := by
  induction front with
  | nil => simp [deletejobScan, hJ]
  | cons j rest ih =>
    simp [deletejobScan, hfront j (List.mem_cons_self _ _),
      ih (fun x hx => hfront x (List.mem_cons_of_mem _ hx))]

theorem pid2jidScan_append (pid : Int) (front : List job_t) (J : job_t) (back : List job_t)
    (hfront : ∀ j ∈ front, j.pid ≠ pid) (hJ : J.pid = pid) :
    pid2jidScan pid (front ++ J :: back) = J.jid := by
  induction front with
  | nil => simp [pid2jidScan, hJ]
  | cons j rest ih =>
    simp [pid2jidScan, hfront j (List.mem_cons_self _ _),
      ih (fun x hx => hfront x (List.mem_cons_of_mem _ hx))]

theorem get?_append_mid (front : List job_t) (J : job_t) (back : List job_t) :
    (front ++ J :: back).get? front.length = some J := by
  induction front with
  | nil => rfl
  | cons j rest ih => simpa using ih

theorem getjobpid_append (pid : Int) (front : List job_t) (J : job_t) (back : List job_t)
    (hp : 0 < pid) (hfront : ∀ j ∈ front, j.pid ≠ pid) (hJ : J.pid = pid) :
    getjobpid (front ++ J :: back) pid = some front.length := by
  have h1 : ¬ pid < 1 := by omega
  simp only [getjobpid, h1, if_false]
  exact firstSlot_append front J back (fun j hj => by simpa using hfront j hj) (by simpa using hJ)

theorem getjobjid_append (jid : Int) (front : List job_t) (J : job_t) (back : List job_t)
    (hp : 0 < jid) (hfront : ∀ j ∈ front, j.jid ≠ jid) (hJ : J.jid = jid) :
    getjobjid (front ++ J :: back) jid = some front.length := by
  have h1 : ¬ jid < 1 := by omega
  simp only [getjobjid, h1, if_false]
  exact firstSlot_append front J back (fun j hj => by simpa using hfront j hj) (by simpa using hJ)

theorem foldl_max_ge (jobs : List job_t) (m : Int) :
    m ≤ jobs.foldl (fun max j => if j.jid > max then j.jid else max) m ∧
    (∀ j ∈ jobs, j.jid ≤ jobs.foldl (fun max j => if j.jid > max then j.jid else max) m) ∧
    (jobs.foldl (fun max j => if j.jid > max then j.jid else max) m = m ∨
      ∃ j ∈ jobs, j.jid = jobs.foldl (fun max j => if j.jid > max then j.jid else max) m) := by
  induction jobs generalizing m with
  | nil => simp
  | cons j rest ih =>
    simp only [List.foldl_cons, List.mem_cons, forall_eq_or_imp, exists_eq_or_imp]
    by_cases h : j.jid > m
    · simp only [h, if_true]
      obtain ⟨h1, h2, h3⟩ := ih j.jid
      refine ⟨by omega, ⟨h1, h2⟩, ?_⟩
      rcases h3 with h3 | h3
      · exact Or.inr (Or.inl h3.symm)
      · exact Or.inr (Or.inr h3)
    · simp only [h, if_false]
      obtain ⟨h1, h2, h3⟩ := ih m
      refine ⟨h1, ⟨by omega, h2⟩, ?_⟩
      rcases h3 with h3 | h3
      · exact Or.inl h3
      · exact Or.inr (Or.inr h3)

/-- The result of maxjid is the largest job id in the table, or 0 when no job
id is above 0. -/
theorem maxjid_spec (jobs : List job_t) :
    (∀ j ∈ jobs, j.jid ≤ maxjid jobs) ∧ 0 ≤ maxjid jobs ∧
    (maxjid jobs = 0 ∨ ∃ j ∈ jobs, j.jid = maxjid jobs) := by
  obtain ⟨h1, h2, h3⟩ := foldl_max_ge jobs 0
  exact ⟨h2, h1, h3⟩

/-- C9: for every table in which the positive pid p is live in the slot J (the
first slot that holds p), the reaper on a stop by signal n changes only the
state field of that slot, to ST, and prints that the job, with the job id of
J, was stopped by signal n; on a kill by signal n it clears that slot, leaves
every other slot unchanged, sets nextjid to one more than the largest job id
left in the table (1 when none is left) and prints that the job, with the job
id it had before removal, was terminated by signal n; on a normal exit it does
the same removal and prints nothing. -/
theorem reap_known_child (s : Shell) (p n code : Int) (front back : List job_t) (J : job_t)
    (hp : 0 < p) (hs : s.jobs = front ++ J :: back) (hJ : J.pid = p)
    (hfront : ∀ j ∈ front, j.pid ≠ p) :
    reap s p (Status.stopped n) =
      some { s with
        jobs := front ++ { J with state := ST } :: back,
        out := s.out ++ [Event.print ("Job [" ++ toString J.jid ++ "] (" ++ toString p ++
          ") stopped by signal " ++ toString n ++ "\n")] } ∧
    reap s p (Status.signaled n) =
      some { s with
        jobs := front ++ clearjob J :: back,
        nextjid := maxjid (front ++ clearjob J :: back) + 1,
        out := s.out ++ [Event.print ("Job [" ++ toString J.jid ++ "] (" ++ toString p ++
          ") terminated by signal " ++ toString n ++ "\n")] } ∧
    reap s p (Status.exited code) =
      some { s with
        jobs := front ++ clearjob J :: back,
        nextjid := maxjid (front ++ clearjob J :: back) + 1 } ∧
    clearjob J = { pid := 0, jid := 0, state := UNDEF, cmdline := "" } ∧
    (∀ j ∈ front ++ clearjob J :: back, j.jid < maxjid (front ++ clearjob J :: back) + 1) ∧
    (maxjid (front ++ clearjob J :: back) + 1 = 1 ∨
      ∃ j ∈ front ++ back, maxjid (front ++ clearjob J :: back) + 1 = j.jid + 1) := by
  have h1 : ¬ p < 1 := by omega
  have hjid : pid2jid s.jobs p = J.jid := by
    simp only [pid2jid, h1, if_false, hs]
    exact pid2jidScan_append p front J back hfront hJ
  have hget : getjobpid s.jobs p = some front.length := by
    rw [hs]; exact getjobpid_append p front J back hp hfront hJ
  have hdel : deletejob s p =
      (1, { s with jobs := front ++ clearjob J :: back,
                   nextjid := maxjid (front ++ clearjob J :: back) + 1 }) := by
    simp only [deletejob, h1, if_false, hs, deletejobScan_append p front J back hfront hJ]
  obtain ⟨m1, _, m3⟩ := maxjid_spec (front ++ clearjob J :: back)
  refine ⟨?_, ?_, ?_, rfl, ?_, ?_⟩
  · simp only [reap, hjid, hget]
    rw [hs, setState_append]
  · simp only [reap, hjid, hdel]
  · simp only [reap, hdel]
  · intro j hj
    have := m1 j hj
    omega
  · rcases m3 with m3 | ⟨j, hj, hjm⟩
    · left; omega
    · rcases List.mem_append.1 hj with hj | hj
      · exact Or.inr ⟨j, List.mem_append_left _ hj, by omega⟩
      · rcases List.mem_cons.1 hj with rfl | hj
        · left
          have : (clearjob J).jid = 0 := rfl
          omega
        · exact Or.inr ⟨j, List.mem_append_right _ hj, by omega⟩

/-- Witness for C9: in the table with jobs 1, 2, 3 (pids 11, 12, 13), the
child 12 is killed by signal 9: its slot is cleared, the other slots stay, and
nextjid becomes 4, one more than the job id 3 that is left. -/
theorem reap_known_child_witness :
    reap threeJobs 12 (Status.signaled 9) =
      some { threeJobs with
        jobs := [{ pid := 11, jid := 1, state := BG, cmdline := "a &\n" },
                 { pid := 0, jid := 0, state := UNDEF, cmdline := "" },
                 { pid := 13, jid := 3, state := BG, cmdline := "c &\n" }]
                ++ List.replicate 13 { pid := 0, jid := 0, state := UNDEF, cmdline := "" },
        nextjid := 4,
        out := [Event.print "Job [2] (12) terminated by signal 9\n"] } :=
  (reap_known_child threeJobs 12 9 0
    [{ pid := 11, jid := 1, state := BG, cmdline := "a &\n" }]
    ({ pid := 13, jid := 3, state := BG, cmdline := "c &\n" }
      :: List.replicate 13 { pid := 0, jid := 0, state := UNDEF, cmdline := "" })
    { pid := 12, jid := 2, state := ST, cmdline := "b\n" }
    (by decide) (by decide) (by decide) (by decide)).2.1

/-! ## bg and fg on a job that the selector finds (C10) -/

theorem bgfgApply_bg (s : Shell) (arg1 : CStr) (front back : List job_t) (J : job_t)
    (hs : s.jobs = front ++ J :: back) (hbg : strcmpEq arg1 "bg" = true) :
    bgfgApply s arg1 front.length =
      ({ s with
          jobs := front ++ { J with state := BG } :: back,
          out := s.out ++ [Event.print
            ("[" ++ toString J.jid ++ "] (" ++ toString J.pid ++ ") " ++ J.cmdline),
            Event.kill (- J.pid) SIGCONT] }, Control.returned) := by
  simp only [bgfgApply, hs, get?_append_mid, hbg, if_true, setState_append]

theorem strcmpEq_bg_fg {arg1 : CStr} (hfg : strcmpEq arg1 "fg" = true) :
    strcmpEq arg1 "bg" = false := by
  simp only [strcmpEq, decide_eq_true_eq] at hfg
  simp only [strcmpEq, hfg]
  decide

theorem bgfgApply_fg (s : Shell) (arg1 : CStr) (front back : List job_t) (J : job_t)
    (hs : s.jobs = front ++ J :: back) (hfg : strcmpEq arg1 "fg" = true) :
    bgfgApply s arg1 front.length =
      ({ s with
          jobs := front ++ { J with state := FG } :: back,
          out := s.out ++ [Event.kill (- J.pid) SIGCONT] },
        waitfg (front ++ { J with state := FG } :: back) J.pid) := by
  simp only [bgfgApply, hs, get?_append_mid, strcmpEq_bg_fg hfg, hfg, if_true,
    setState_append, Bool.false_eq_true, if_false]

theorem waitfg_on_first_slot (front back : List job_t) (J : job_t) (hp : 0 < J.pid)
    (hfront : ∀ j ∈ front, j.pid ≠ J.pid) (hfg : J.state = FG) :
    waitfg (front ++ J :: back) J.pid = Control.waiting front.length := by
  have h0 : J.pid ≠ 0 := by omega
  simp only [waitfg, h0, if_false, getjobpid_append J.pid front J back hp hfront rfl,
    get?_append_mid, hfg, if_true]

/-- C10: for every table and every selector that do_bgfg takes for a pid or
for a job id and that resolves to the live job J (the first slot that holds
the positive pid, or the positive job id, that atoi reads from the selector),
bg sets the state of J to BG,
prints the job line with the job id, pid and stored command line of J and then
sends SIGCONT to the process group of J (kill with minus its pid) and returns;
fg sets the state of J to FG, sends SIGCONT to the process group of J and then
calls waitfg on the pid of J, which polls the slot of J when no earlier slot
holds the same pid.  In both cases every other slot, every other field of J,
and nextjid are as before. -/
theorem do_bgfg_on_resolved_job (s : Shell) (arg1 arg2 : CStr) (more : List CStr)
    (front back : List job_t) (J : job_t)
    (hs : s.jobs = front ++ J :: back) (hlive : 0 < J.pid)
    (hres : (acceptedPid arg2 = true ∧ J.pid = atoi arg2 ∧ ∀ j ∈ front, j.pid ≠ atoi arg2) ∨
      (acceptedJid arg2 = true ∧ 0 < atoi (arg2.drop 1) ∧ J.jid = atoi (arg2.drop 1) ∧
        ∀ j ∈ front, j.jid ≠ atoi (arg2.drop 1))) :
    (strcmpEq arg1 "bg" = true →
      do_bgfg s (arg1 :: arg2 :: more) =
        ({ s with
            jobs := front ++ { J with state := BG } :: back,
            out := s.out ++ [Event.print
              ("[" ++ toString J.jid ++ "] (" ++ toString J.pid ++ ") " ++ J.cmdline),
              Event.kill (- J.pid) SIGCONT] }, Control.returned)) ∧
    (strcmpEq arg1 "fg" = true →
      do_bgfg s (arg1 :: arg2 :: more) =
        ({ s with
            jobs := front ++ { J with state := FG } :: back,
            out := s.out ++ [Event.kill (- J.pid) SIGCONT] },
          waitfg (front ++ { J with state := FG } :: back) J.pid) ∧
      ((∀ j ∈ front, j.pid ≠ J.pid) →
        waitfg (front ++ { J with state := FG } :: back) J.pid
          = Control.waiting front.length)) := by
  have hfound : do_bgfg s (arg1 :: arg2 :: more) = bgfgApply s arg1 front.length := by
    rcases hres with ⟨ha, hpid, hfront⟩ | ⟨ha, hpos, hjid, hfront⟩
    · have hg : getjobpid s.jobs (atoi arg2) = some front.length := by
        rw [hs]
        exact getjobpid_append (atoi arg2) front J back (by omega) hfront hpid
      simp only [do_bgfg, selector_eq, ha, if_true, hg]
    · have hp : acceptedPid arg2 = false := by
        simp only [acceptedJid, Bool.and_eq_true, decide_eq_true_eq] at ha
        simp [acceptedPid, isDigit, ha.1]
      have hg : getjobjid s.jobs (atoi (arg2.drop 1)) = some front.length := by
        rw [hs]
        exact getjobjid_append (atoi (arg2.drop 1)) front J back hpos hfront hjid
      simp only [do_bgfg, selector_eq, ha, hp, if_true, hg, Bool.false_eq_true, if_false]
  refine ⟨fun hbg => ?_, fun hfg => ⟨?_, fun huniq => ?_⟩⟩
  · rw [hfound]; exact bgfgApply_bg s arg1 front back J hs hbg
  · rw [hfound]; exact bgfgApply_fg s arg1 front back J hs hfg
  · exact waitfg_on_first_slot front back { J with state := FG } hlive huniq rfl

/-- Witness for C10: in the table with jobs 1, 2, 3 (pids 11, 12, 13), fg of
job id 2 sets the stopped job 2 to FG, sends SIGCONT to the group of pid 12 and
waits on its slot 1. -/
theorem do_bgfg_on_resolved_job_witness :
    do_bgfg threeJobs [ofString "fg", ofString "%2"] =
      ({ threeJobs with
          jobs := [{ pid := 11, jid := 1, state := BG, cmdline := "a &\n" },
                   { pid := 12, jid := 2, state := FG, cmdline := "b\n" },
                   { pid := 13, jid := 3, state := BG, cmdline := "c &\n" }]
                  ++ List.replicate 13 { pid := 0, jid := 0, state := UNDEF, cmdline := "" },
          out := [Event.kill (-12) SIGCONT] },
        Control.waiting 1) :=
  ((do_bgfg_on_resolved_job threeJobs (ofString "fg") (ofString "%2") []
    [{ pid := 11, jid := 1, state := BG, cmdline := "a &\n" }]
    ({ pid := 13, jid := 3, state := BG, cmdline := "c &\n" }
      :: List.replicate 13 { pid := 0, jid := 0, state := UNDEF, cmdline := "" })
    { pid := 12, jid := 2, state := ST, cmdline := "b\n" }
    (by decide) (by decide) (Or.inr (by decide))).2 (by decide)).1.trans (by decide)

/-! ## At most one foreground job (C2) -/

theorem get?_replace_mid (J : job_t) (front back : List job_t) (J1 : job_t) (k : Nat)
    (j1 : job_t) (h : (front ++ J1 :: back).get? k = some j1) :
    (k = front.length ∧ j1 = J1) ∨ (k ≠ front.length ∧ (front ++ J :: back).get? k = some j1) := by
  induction front generalizing k with
  | nil =>
    cases k with
    | zero =>
      left
      simp only [List.nil_append, List.get?, Option.some.injEq] at h
      exact ⟨rfl, h.symm⟩
    | succ k =>
      right
      simp only [List.nil_append, List.get?] at h ⊢
      exact ⟨by simp, h⟩
  | cons a rest ih =>
    cases k with
    | zero =>
      right
      simp only [List.cons_append, List.get?] at h ⊢
      exact ⟨by simp, h⟩
    | succ k =>
      simp only [List.cons_append, List.get?] at h ⊢
      rcases ih k h with ⟨h1, h2⟩ | ⟨h1, h2⟩
      · left; exact ⟨by simp [h1], h2⟩
      · right; exact ⟨by simpa using h1, h2⟩

theorem fgOnlyAt_replace_notFG {front back : List job_t} {J J1 : job_t} {polling : Option Nat}
    (h : FgOnlyAt (front ++ J :: back) polling) (h1 : J1.state ≠ FG) :
    FgOnlyAt (front ++ J1 :: back) polling := by
  intro k j hk hfg
  rcases get?_replace_mid J front back J1 k j hk with ⟨_, rfl⟩ | ⟨_, hk1⟩
  · exact absurd hfg h1
  · exact h k j hk1 hfg

theorem fgOnlyAt_replace_idle {front back : List job_t} {J : job_t} (J1 : job_t)
    (h : FgOnlyAt (front ++ J :: back) none) :
    FgOnlyAt (front ++ J1 :: back) (some front.length) := by
  intro k j hk hfg
  rcases get?_replace_mid J front back J1 k j hk with ⟨hk0, _⟩ | ⟨_, hk1⟩
  · rw [hk0]
  · exact absurd (h k j hk1 hfg) (by simp)

theorem fgOnlyAt_of_idle {jobs : List job_t} (h : FgOnlyAt jobs none) (polling : Option Nat) :
    FgOnlyAt jobs polling := by
  intro k j hk hfg
  exact absurd (h k j hk hfg) (by simp)

theorem firstSlot_eq_some {test : job_t → Bool} {jobs : List job_t} {i : Nat}
    (h : firstSlot test jobs = some i) :
    ∃ front J back, jobs = front ++ J :: back ∧ front.length = i ∧ test J = true ∧
      ∀ j ∈ front, test j = false := by
  induction jobs generalizing i with
  | nil => simp [firstSlot] at h
  | cons a rest ih =>
    by_cases ha : test a = true
    · simp only [firstSlot, ha, if_true, Option.some.injEq] at h
      exact ⟨[], a, rest, rfl, by simpa using h, ha, by simp⟩
    · simp only [firstSlot, ha, Bool.false_eq_true, if_false, Option.map_eq_some'] at h
      obtain ⟨i1, hi1, rfl⟩ := h
      obtain ⟨front, J, back, h1, h2, h3, h4⟩ := ih hi1
      refine ⟨a :: front, J, back, by simp [h1], by simp [h2], h3, ?_⟩
      intro j hj
      rcases List.mem_cons.1 hj with rfl | hj
      · simpa using ha
      · exact h4 j hj

theorem addjobScan_eq_some {pid state jid : Int} {cmdline : String} {jobs jobs1 : List job_t}
    (h : addjobScan pid state jid cmdline jobs = some jobs1) :
    ∃ front J back, jobs = front ++ J :: back ∧ J.pid = 0 ∧
      jobs1 = front ++ { pid := pid, jid := jid, state := state, cmdline := cmdline } :: back := by
  induction jobs generalizing jobs1 with
  | nil => simp [addjobScan] at h
  | cons a rest ih =>
    by_cases ha : a.pid = 0
    · simp only [addjobScan, ha, if_true, Option.some.injEq] at h
      exact ⟨[], a, rest, rfl, ha, by simpa using h.symm⟩
    · simp only [addjobScan, ha, if_false, Option.map_eq_some'] at h
      obtain ⟨r, hr, rfl⟩ := h
      obtain ⟨front, J, back, h1, h2, h3⟩ := ih hr
      exact ⟨a :: front, J, back, by simp [h1], h2, by simp [h3]⟩

theorem deletejobScan_eq_some {pid : Int} {jobs jobs1 : List job_t}
    (h : deletejobScan pid jobs = some jobs1) :
    ∃ front J back, jobs = front ++ J :: back ∧ jobs1 = front ++ clearjob J :: back := by
  induction jobs generalizing jobs1 with
  | nil => simp [deletejobScan] at h
  | cons a rest ih =>
    by_cases ha : a.pid = pid
    · simp only [deletejobScan, ha, if_true, Option.some.injEq] at h
      exact ⟨[], a, rest, rfl, by simpa using h.symm⟩
    · simp only [deletejobScan, ha, if_false, Option.map_eq_some'] at h
      obtain ⟨r, hr, rfl⟩ := h
      obtain ⟨front, J, back, h1, h2⟩ := ih hr
      exact ⟨a :: front, J, back, by simp [h1], by simp [h2]⟩

theorem livePids_append (a b : List job_t) : livePids (a ++ b) = livePids a ++ livePids b := by
  simp [livePids]

theorem livePids_replace_same_pid (front back : List job_t) (J J1 : job_t)
    (h : J1.pid = J.pid) : livePids (front ++ J1 :: back) = livePids (front ++ J :: back) := by
  simp only [livePids_append, livePids_cons, h]

theorem livePids_clear_sublist (front back : List job_t) (J : job_t) :
    (livePids (front ++ clearjob J :: back)).Sublist (livePids (front ++ J :: back)) := by
  simp only [livePids_append, livePids_cons]
  apply List.Sublist.append_left
  have hc : (clearjob J).pid = 0 := rfl
  simp only [hc, if_true]
  by_cases hJ : J.pid = 0
  · simp [hJ]
  · simp only [hJ, if_false]
    exact List.sublist_cons_self _ _

theorem mem_livePids {jobs : List job_t} {j : job_t} (hj : j ∈ jobs) (h0 : j.pid ≠ 0) :
    j.pid ∈ livePids jobs := by
  simp only [livePids, List.mem_map, List.mem_filter, decide_eq_true_eq]
  exact ⟨j, ⟨hj, h0⟩, rfl⟩

theorem front_pids_ne {front back : List job_t} {J : job_t} (h0 : J.pid ≠ 0)
    (hnd : (livePids (front ++ J :: back)).Nodup) : ∀ j ∈ front, j.pid ≠ J.pid := by
  intro j hj heq
  simp only [livePids_append, livePids_cons, h0, if_false] at hnd
  have hm : J.pid ∈ livePids front := by
    rw [← heq]
    exact mem_livePids hj (by rw [heq]; exact h0)
  exact (List.nodup_append.1 hnd).2.2 hm (List.mem_cons_self _ _)

theorem freeJid_replace {front back : List job_t} {J J1 : job_t}
    (h : ∀ j ∈ front ++ J :: back, j.pid = 0 → j.jid = 0) (h1 : J1.pid = 0 → J1.jid = 0) :
    ∀ j ∈ front ++ J1 :: back, j.pid = 0 → j.jid = 0 := by
  intro j hj
  rcases List.mem_append.1 hj with hj | hj
  · exact h j (List.mem_append_left _ hj)
  · rcases List.mem_cons.1 hj with rfl | hj
    · exact h1
    · exact h j (List.mem_append_right _ (List.mem_cons_of_mem _ hj))

theorem inv_deletejob {s : Sys} (h : Inv s) (pid : Int) :
    Inv { sh := (deletejob s.sh pid).2, polling := s.polling } := by
  obtain ⟨h1, h2, h3⟩ := h
  unfold deletejob
  by_cases hp : pid < 1
  · simp only [hp, if_true]; exact ⟨h1, h2, h3⟩
  · simp only [hp, if_false]
    cases hs : deletejobScan pid s.sh.jobs with
    | none => exact ⟨h1, h2, h3⟩
    | some jobs1 =>
      obtain ⟨front, J, back, e1, e2⟩ := deletejobScan_eq_some hs
      subst e2
      simp only [Inv]
      rw [e1] at h1 h2 h3
      exact ⟨freeJid_replace h1 (fun _ => rfl),
        (livePids_clear_sublist front back J).nodup h2,
        fgOnlyAt_replace_notFG h3 (show (clearjob J).state ≠ FG by simp [clearjob, UNDEF, FG])⟩

theorem inv_out {s : Sys} (h : Inv s) (out : List Event) :
    Inv { sh := { s.sh with out := out }, polling := s.polling } := h

theorem inv_reap {s : Sys} (h : Inv s) (pid : Int) (status : Status) (sh1 : Shell)
    (hr : reap s.sh pid status = some sh1) : Inv { sh := sh1, polling := s.polling } := by
  cases status with
  | exited code =>
    simp only [reap, Option.some.injEq] at hr
    subst hr
    exact inv_deletejob h pid
  | signaled sig =>
    simp only [reap, Option.some.injEq] at hr
    subst hr
    exact inv_deletejob h pid
  | stopped sig =>
    simp only [reap] at hr
    cases hg : getjobpid s.sh.jobs pid with
    | none => simp [hg] at hr
    | some i =>
      simp only [hg, Option.some.injEq] at hr
      subst hr
      unfold getjobpid at hg
      by_cases hp : pid < 1
      · simp [hp] at hg
      · simp only [hp, if_false] at hg
        obtain ⟨front, J, back, e1, e2, _, _⟩ := firstSlot_eq_some hg
        obtain ⟨h1, h2, h3⟩ := h
        simp only [Inv]
        rw [e1] at h1 h2 h3 ⊢
        rw [← e2, setState_append]
        refine ⟨freeJid_replace h1 (fun hz => h1 J (by simp) hz), ?_,
          fgOnlyAt_replace_notFG h3 (show ({ J with state := ST } : job_t).state ≠ FG by
            simp [ST, FG])⟩
        rw [livePids_replace_same_pid front back J { J with state := ST } rfl]
        exact h2

theorem eval_parent_jobs (s : Shell) (pid : Int) (bg : Bool) (cmdline : String) :
    (eval_parent s pid bg cmdline).1.jobs
      = (addjob s pid (if bg then BG else FG) cmdline).2.jobs ∧
    (eval_parent s pid bg cmdline).2
      = (if bg then Control.returned
          else waitfg (addjob s pid (if bg then BG else FG) cmdline).2.jobs pid) := by
  cases bg <;> simp [eval_parent]

theorem addjob_jobs_cases (s : Shell) (pid state : Int) (cmdline : String) :
    (addjob s pid state cmdline).2.jobs = s.jobs ∨
    ∃ front J back, s.jobs = front ++ J :: back ∧ J.pid = 0 ∧ 0 < pid ∧
      (addjob s pid state cmdline).2.jobs
        = front ++ { pid := pid, jid := s.nextjid, state := state, cmdline := cmdline } :: back := by
  unfold addjob
  by_cases hp : pid < 1
  · simp [hp]
  · simp only [hp, if_false]
    cases hs : addjobScan pid state s.nextjid cmdline s.jobs with
    | none => simp
    | some jobs1 =>
      right
      obtain ⟨front, J, back, h1, h2, h3⟩ := addjobScan_eq_some hs
      exact ⟨front, J, back, h1, h2, by omega, h3⟩

theorem inv_launch {s : Sys} (h : Inv s) (pid : Int) (bg : Bool) (cmdline : String)
    (hidle : s.polling = none) (hnew : pid ∉ livePids s.sh.jobs) :
    Inv { sh := (eval_parent s.sh pid bg cmdline).1,
          polling := (eval_parent s.sh pid bg cmdline).2.toPolling } := by
  obtain ⟨h1, h2, h3⟩ := h
  rw [hidle] at h3
  obtain ⟨e1, e2⟩ := eval_parent_jobs s.sh pid bg cmdline
  simp only [Inv]
  rw [e1, e2]
  rcases addjob_jobs_cases s.sh pid (if bg then BG else FG) cmdline with hj | hj
  · rw [hj]
    exact ⟨h1, h2, fgOnlyAt_of_idle h3 _⟩
  · obtain ⟨front, J, back, j1, j2, j3, j4⟩ := hj
    rw [j4]
    rw [j1] at h1 h2 h3 hnew
    have hp0 : pid ≠ 0 := by omega
    refine ⟨freeJid_replace h1 (fun hz => absurd hz hp0), ?_, ?_⟩
    · have hl : livePids (front ++ J :: back) = livePids front ++ livePids back := by
        simp [livePids_append, livePids_cons, j2]
      rw [hl] at h2 hnew
      simp only [livePids_append, livePids_cons, hp0, if_false]
      have hperm : (livePids front ++ pid :: livePids back).Perm
          (pid :: (livePids front ++ livePids back)) := List.perm_middle
      exact hperm.nodup_iff.2 (List.nodup_cons.2 ⟨hnew, h2⟩)
    · cases bg with
      | true =>
        simp only [if_true, Control.toPolling]
        exact fgOnlyAt_replace_notFG h3 (show BG ≠ FG by decide)
      | false =>
        simp only [Bool.false_eq_true, if_false]
        have hfront : ∀ j ∈ front, j.pid ≠ pid := by
          intro j hj heq
          exact hnew (heq ▸ mem_livePids (List.mem_append_left _ hj) (by rw [heq]; exact hp0))
        rw [waitfg_on_first_slot front back
          { pid := pid, jid := s.sh.nextjid, state := FG, cmdline := cmdline } j3 hfront rfl]
        exact fgOnlyAt_replace_idle _ h3

theorem inv_bgfgApply {s : Sys} (h : Inv s) (arg1 : CStr) (front back : List job_t) (J : job_t)
    (hidle : s.polling = none) (hs : s.sh.jobs = front ++ J :: back) (hJ : J.pid ≠ 0)
    (hnf : (bgfgApply s.sh arg1 front.length).2 ≠ Control.fault) :
    Inv { sh := (bgfgApply s.sh arg1 front.length).1,
          polling := (bgfgApply s.sh arg1 front.length).2.toPolling } := by
  obtain ⟨h1, h2, h3⟩ := h
  rw [hidle] at h3
  by_cases hbg : strcmpEq arg1 "bg" = true
  · rw [bgfgApply_bg s.sh arg1 front back J hs hbg]
    simp only [Inv, Control.toPolling]
    rw [hs] at h1 h2 h3
    refine ⟨freeJid_replace h1 (fun hz => absurd hz hJ), ?_,
      fgOnlyAt_replace_notFG h3 (show BG ≠ FG by decide)⟩
    rw [livePids_replace_same_pid front back J { J with state := BG } rfl]
    exact h2
  · by_cases hfg : strcmpEq arg1 "fg" = true
    · rw [bgfgApply_fg s.sh arg1 front back J hs hfg] at hnf ⊢
      simp only [Inv]
      rw [hs] at h1 h2 h3
      have hpos : 0 < J.pid := by
        by_contra hneg
        have hlt : J.pid < 1 := by omega
        apply hnf
        simp [waitfg, hJ, getjobpid, hlt]
      have hfront : ∀ j ∈ front, j.pid ≠ J.pid := front_pids_ne hJ h2
      have hw := waitfg_on_first_slot front back { J with state := FG } hpos hfront rfl
      simp only at hw
      rw [hw]
      refine ⟨freeJid_replace h1 (fun hz => absurd hz hJ), ?_, fgOnlyAt_replace_idle _ h3⟩
      rw [livePids_replace_same_pid front back J { J with state := FG } rfl]
      exact h2
    · have he : bgfgApply s.sh arg1 front.length = (s.sh, Control.returned) := by
        simp only [bgfgApply, hs, get?_append_mid, hbg, hfg, Bool.false_eq_true, if_false]
      rw [he]
      exact ⟨h1, h2, by simpa [Control.toPolling] using h3⟩

theorem inv_bgfg {s : Sys} (h : Inv s) (argv : List CStr) (hidle : s.polling = none)
    (hnf : (do_bgfg s.sh argv).2 ≠ Control.fault) :
    Inv { sh := (do_bgfg s.sh argv).1, polling := (do_bgfg s.sh argv).2.toPolling } := by
  have hsame : ∀ out : List Event,
      Inv { sh := { s.sh with out := out }, polling := Control.returned.toPolling } := by
    intro out
    obtain ⟨h1, h2, h3⟩ := h
    rw [hidle] at h3
    exact ⟨h1, h2, h3⟩
  match argv with
  | [] => exact absurd rfl hnf
  | [arg1] => exact hsame _
  | arg1 :: arg2 :: more =>
    by_cases hp : (selector arg2).2 = true
    · cases hg : getjobpid s.sh.jobs (atoi arg2) with
      | none =>
        simp only [do_bgfg, hp, if_true, hg]
        exact hsame _
      | some i =>
        simp only [do_bgfg, hp, if_true, hg] at hnf ⊢
        unfold getjobpid at hg
        by_cases hlt : atoi arg2 < 1
        · simp [hlt] at hg
        · simp only [hlt, if_false] at hg
          obtain ⟨front, J, back, e1, e2, e3, _⟩ := firstSlot_eq_some hg
          subst e2
          have hJ : J.pid ≠ 0 := by
            simp only [decide_eq_true_eq] at e3
            omega
          exact inv_bgfgApply h arg1 front back J hidle e1 hJ hnf
    · by_cases hj : (selector arg2).1 = true
      · cases hg : getjobjid s.sh.jobs (atoi (arg2.drop 1)) with
        | none =>
          simp only [do_bgfg, hp, hj, if_true, hg, Bool.false_eq_true, if_false]
          exact hsame _
        | some i =>
          simp only [do_bgfg, hp, hj, if_true, hg, Bool.false_eq_true, if_false] at hnf ⊢
          unfold getjobjid at hg
          by_cases hlt : atoi (arg2.drop 1) < 1
          · simp only [hlt, if_true] at hg
            exact absurd hg (by simp)
          · simp only [hlt, if_false] at hg
            obtain ⟨front, J, back, e1, e2, e3, _⟩ := firstSlot_eq_some hg
            subst e2
            have hJ : J.pid ≠ 0 := by
              intro hz
              have := h.1 J (by rw [e1]; simp) hz
              simp only [decide_eq_true_eq] at e3
              omega
            exact inv_bgfgApply h arg1 front back J hidle e1 hJ hnf
      · simp only [do_bgfg, hp, hj, Bool.false_eq_true, if_false]
        exact hsame _

theorem inv_step {s t : Sys} (h : Inv s) (hst : Step s t) : Inv t := by
  cases hst with
  | launch pid bg cmdline hidle _ hnew _ => exact inv_launch h pid bg cmdline hidle hnew
  | bgfg argv hidle hnf => exact inv_bgfg h argv hidle hnf
  | reaper pid status sh1 _ hr => exact inv_reap h pid status sh1 hr
  | wake i hpoll hnot =>
    obtain ⟨h1, h2, h3⟩ := h
    refine ⟨h1, h2, ?_⟩
    intro k j hk hfg
    have hki := h3 k j hk hfg
    rw [hpoll, Option.some.injEq] at hki
    subst hki
    exact absurd hfg (hnot j hk)

theorem inv_initial {s : Sys} (h : Initial s) : Inv s := by
  obtain ⟨h1, _, _, h4⟩ := h
  have hall : ∀ j ∈ s.sh.jobs, j = clearjob j := by
    intro j hj
    rw [h1] at hj
    simp only [initjobs, List.mem_map] at hj
    obtain ⟨a, _, rfl⟩ := hj
    rfl
  refine ⟨fun j hj _ => by rw [hall j hj]; rfl, by rw [h1, livePids_initjobs_zeroJobs]; simp, ?_⟩
  intro k j hk hfg
  have hj : j ∈ s.sh.jobs := List.mem_iff_get?.2 ⟨k, hk⟩
  rw [hall j hj] at hfg
  exact absurd hfg (show (clearjob j).state ≠ FG by simp [clearjob, UNDEF, FG])

theorem inv_reachable {s : Sys} (h : Reachable s) : Inv s := by
  obtain ⟨s0, h0, hsteps⟩ := h
  induction hsteps with
  | refl => exact inv_initial h0
  | tail _ hst ih => exact inv_step ih hst

/-- In every reachable state of the step model a free slot holds job id 0: the
tables that the shell builds satisfy the condition of the job id case of the
theorem on the user-input errors of bg and fg. -/
theorem freeJid_reachable {s : Sys} (h : Reachable s) :
    ∀ j ∈ s.sh.jobs, j.pid = 0 → j.jid = 0 :=
  (inv_reachable h).1

theorem countFG_eq_zero_of_idle {jobs : List job_t} (h : FgOnlyAt jobs none) :
    countFG jobs = 0 := by
  simp only [countFG, List.length_eq_zero, List.filter_eq_nil_iff, decide_eq_true_eq]
  intro j hj hfg
  obtain ⟨k, hk⟩ := List.mem_iff_get?.1 hj
  exact absurd (h k j hk hfg) (by simp)

theorem countFG_le_one {jobs : List job_t} {polling : Option Nat}
    (h : FgOnlyAt jobs polling) : countFG jobs ≤ 1 := by
  induction jobs generalizing polling with
  | nil => simp [countFG]
  | cons a rest ih =>
    by_cases ha : a.state = FG
    · have h0 : polling = some 0 := h 0 a rfl ha
      have hrest : FgOnlyAt rest none := by
        intro k j hk hfg
        have := h (k + 1) j hk hfg
        rw [h0] at this
        simp at this
      have hz := countFG_eq_zero_of_idle hrest
      simp only [countFG, List.filter_cons, ha, decide_True, if_true, List.length_cons] at hz ⊢
      omega
    · have hrest : FgOnlyAt rest (polling.bind (fun n => if n = 0 then none else some (n - 1))) := by
        intro k j hk hfg
        have := h (k + 1) j hk hfg
        rw [this]
        simp
      have := ih hrest
      simpa [countFG, List.filter_cons, ha] using this

/-- C2: in the sequential step model of the shell (a command is launched, in
foreground or background, only when waitfg is not polling and with a positive
pid that no live slot holds, as fork returns it; the bg and fg builtin runs
only when waitfg is not polling; the reaper handles an exit, kill or stop of a
child at any time; waitfg returns when the slot it polls is no longer FG),
every state reachable from the initialised table has at most one slot whose
state is FG. -/
theorem at_most_one_foreground (s : Sys) (h : Reachable s) : countFG s.sh.jobs ≤ 1 :=
  countFG_le_one (inv_reachable h).2.2

/-- Witness for C2: after a background launch of pid 4 and a foreground launch
of pid 5 from the initialised table the state is reachable, waitfg polls slot
1, and exactly that slot is FG. -/
theorem at_most_one_foreground_witness :
    countFG twoLaunches.sh.jobs = 1 ∧ countFG twoLaunches.sh.jobs ≤ 1 :=
  ⟨by decide,
   at_most_one_foreground twoLaunches
    ⟨{ sh := initShell, polling := none }, ⟨rfl, rfl, rfl, rfl⟩,
      Relation.ReflTransGen.tail
        (Relation.ReflTransGen.single
          (Step.launch { sh := initShell, polling := none } 4 true "a &\n" rfl (by decide)
            (by decide) (by decide)))
        (Step.launch { sh := (eval_parent initShell 4 true "a &\n").1, polling := none }
          5 false "b\n" rfl (by decide) (by decide) (by decide))⟩⟩

/-! ## The handlers of SIGINT and SIGTSTP (C11) -/

theorem fgpid_eq_zero_of_no_fg {jobs : List job_t} (h : ∀ j ∈ jobs, j.state ≠ FG) :
    fgpid jobs = 0 := by
  induction jobs with
  | nil => rfl
  | cons a rest ih =>
    simp only [fgpid, h a (List.mem_cons_self _ _), if_false]
    exact ih (fun j hj => h j (List.mem_cons_of_mem _ hj))

theorem fgpid_first_fg {jobs : List job_t} (h : ∃ j ∈ jobs, j.state = FG) :
    ∃ front J back, jobs = front ++ J :: back ∧ (∀ j ∈ front, j.state ≠ FG) ∧
      J.state = FG ∧ fgpid jobs = J.pid := by
  induction jobs with
  | nil => simp at h
  | cons a rest ih =>
    by_cases ha : a.state = FG
    · exact ⟨[], a, rest, rfl, by simp, ha, by simp [fgpid, ha]⟩
    · have hrest : ∃ j ∈ rest, j.state = FG := by
        obtain ⟨j, hj, hfg⟩ := h
        rcases List.mem_cons.1 hj with rfl | hj
        · exact absurd hfg ha
        · exact ⟨j, hj, hfg⟩
      obtain ⟨front, J, back, h1, h2, h3, h4⟩ := ih hrest
      refine ⟨a :: front, J, back, by simp [h1], ?_, h3, by simp [fgpid, ha, h4]⟩
      intro j hj
      rcases List.mem_cons.1 hj with rfl | hj
      · exact ha
      · exact h2 j hj

/-- The handler of SIGINT never writes to the table or to nextjid, whatever the
table holds. -/
theorem sigint_handler_frame (s : Shell) (sig : Int) :
    (sigint_handler s sig).jobs = s.jobs ∧ (sigint_handler s sig).nextjid = s.nextjid := by
  by_cases h : fgpid s.jobs = 0 <;> simp [sigint_handler, h]

/-- The handler of SIGTSTP never writes to the table or to nextjid, whatever
the table holds. -/
theorem sigtstp_handler_frame (s : Shell) (sig : Int) :
    (sigtstp_handler s sig).jobs = s.jobs ∧ (sigtstp_handler s sig).nextjid = s.nextjid := by
  by_cases h : fgpid s.jobs = 0 <;> simp [sigtstp_handler, h]

/-- C11: for every table of the shell, in which every slot with state FG holds a
job (its pid is not 0, as in every reachable state, see fgLive_reachable), the
handlers of SIGINT and SIGTSTP send the signal they received to the process
group of p (kill with minus p) exactly when some slot has state FG, where p is
the pid of the first such slot, the one that fgpid returns; they send nothing
when no slot has state FG; and they leave every slot of the table and nextjid
unchanged. -/
theorem handlers_signal_foreground_group (s : Shell) (sig : Int) (hlive : FgLive s.jobs) :
    ((∃ j ∈ s.jobs, j.state = FG) →
      ∃ front J back, s.jobs = front ++ J :: back ∧ (∀ j ∈ front, j.state ≠ FG) ∧
        J.state = FG ∧ fgpid s.jobs = J.pid ∧
        sigint_handler s sig = { s with out := s.out ++ [Event.kill (- J.pid) sig] } ∧
        sigtstp_handler s sig = { s with out := s.out ++ [Event.kill (- J.pid) sig] }) ∧
    ((∀ j ∈ s.jobs, j.state ≠ FG) → sigint_handler s sig = s ∧ sigtstp_handler s sig = s) ∧
    (sigint_handler s sig).jobs = s.jobs ∧ (sigint_handler s sig).nextjid = s.nextjid ∧
    (sigtstp_handler s sig).jobs = s.jobs ∧ (sigtstp_handler s sig).nextjid = s.nextjid := by
  refine ⟨fun h => ?_, fun h => ?_, ?_, ?_, ?_, ?_⟩
  · obtain ⟨front, J, back, h1, h2, h3, h4⟩ := fgpid_first_fg h
    have hJ : J.pid ≠ 0 := hlive J (by rw [h1]; simp) h3
    exact ⟨front, J, back, h1, h2, h3, h4,
      by simp only [sigint_handler, h4, hJ, ne_eq, not_false_eq_true, if_true],
      by simp only [sigtstp_handler, h4, hJ, ne_eq, not_false_eq_true, if_true]⟩
  · have hz := fgpid_eq_zero_of_no_fg h
    exact ⟨by simp [sigint_handler, hz], by simp [sigtstp_handler, hz]⟩
  · exact (sigint_handler_frame s sig).1
  · exact (sigint_handler_frame s sig).2
  · exact (sigtstp_handler_frame s sig).1
  · exact (sigtstp_handler_frame s sig).2

/-- Witness for C11: in the table with jobs 1, 2, 3 after fg of job 2, every
FG slot is live, and the handler of SIGINT sends signal 2 to the process
group of pid 12 and changes nothing else. -/
theorem handlers_signal_foreground_group_witness :
    FgLive threeJobsFg.jobs ∧
    (∃ j ∈ threeJobsFg.jobs, j.state = FG) ∧
    sigint_handler threeJobsFg SIGINT
      = { threeJobsFg with out := threeJobsFg.out ++ [Event.kill (-12) SIGINT] } ∧
    (sigtstp_handler threeJobsFg SIGTSTP).jobs = threeJobsFg.jobs :=
  ⟨by decide, by decide, by decide,
   (handlers_signal_foreground_group threeJobsFg SIGTSTP (by decide)).2.2.2.2.1⟩

/-! ### Every FG slot of a reachable state is live -/

theorem fgLive_replace {front back : List job_t} {J J1 : job_t}
    (h : FgLive (front ++ J :: back)) (h1 : J1.state = FG → J1.pid ≠ 0) :
    FgLive (front ++ J1 :: back) := by
  intro j hj
  rcases List.mem_append.1 hj with hj | hj
  · exact h j (List.mem_append_left _ hj)
  · rcases List.mem_cons.1 hj with rfl | hj
    · exact h1
    · exact h j (List.mem_append_right _ (List.mem_cons_of_mem _ hj))

theorem bgfgApply_jobs_cases (s : Shell) (arg1 : CStr) (front back : List job_t) (J : job_t)
    (hs : s.jobs = front ++ J :: back) :
    (bgfgApply s arg1 front.length).1.jobs = s.jobs ∨
    ∃ st, (bgfgApply s arg1 front.length).1.jobs = front ++ { J with state := st } :: back := by
  by_cases hbg : strcmpEq arg1 "bg" = true
  · right
    exact ⟨BG, by rw [bgfgApply_bg s arg1 front back J hs hbg]⟩
  · by_cases hfg : strcmpEq arg1 "fg" = true
    · right
      exact ⟨FG, by rw [bgfgApply_fg s arg1 front back J hs hfg]⟩
    · left
      simp only [bgfgApply, hs, get?_append_mid, hbg, hfg, Bool.false_eq_true, if_false]

theorem do_bgfg_jobs_cases (s : Shell) (argv : List CStr)
    (hfree : ∀ j ∈ s.jobs, j.pid = 0 → j.jid = 0) :
    (do_bgfg s argv).1.jobs = s.jobs ∨
    ∃ front J back st, s.jobs = front ++ J :: back ∧ J.pid ≠ 0 ∧
      (do_bgfg s argv).1.jobs = front ++ { J with state := st } :: back := by
  match argv with
  | [] => exact Or.inl rfl
  | [arg1] => exact Or.inl rfl
  | arg1 :: arg2 :: more =>
    by_cases hp : (selector arg2).2 = true
    · cases hg : getjobpid s.jobs (atoi arg2) with
      | none =>
        left
        simp only [do_bgfg, hp, if_true, hg]
      | some i =>
        simp only [do_bgfg, hp, if_true, hg]
        unfold getjobpid at hg
        by_cases hlt : atoi arg2 < 1
        · simp only [hlt, if_true] at hg
          exact absurd hg (by simp)
        · simp only [hlt, if_false] at hg
          obtain ⟨front, J, back, e1, e2, e3, _⟩ := firstSlot_eq_some hg
          subst e2
          have hJ : J.pid ≠ 0 := by
            simp only [decide_eq_true_eq] at e3
            omega
          rcases bgfgApply_jobs_cases s arg1 front back J e1 with h | ⟨st, h⟩
          · exact Or.inl h
          · exact Or.inr ⟨front, J, back, st, e1, hJ, h⟩
    · by_cases hj : (selector arg2).1 = true
      · cases hg : getjobjid s.jobs (atoi (arg2.drop 1)) with
        | none =>
          left
          simp only [do_bgfg, hp, hj, if_true, hg, Bool.false_eq_true, if_false]
        | some i =>
          simp only [do_bgfg, hp, hj, if_true, hg, Bool.false_eq_true, if_false]
          unfold getjobjid at hg
          by_cases hlt : atoi (arg2.drop 1) < 1
          · simp only [hlt, if_true] at hg
            exact absurd hg (by simp)
          · simp only [hlt, if_false] at hg
            obtain ⟨front, J, back, e1, e2, e3, _⟩ := firstSlot_eq_some hg
            subst e2
            have hJ : J.pid ≠ 0 := by
              intro hz
              have := hfree J (by rw [e1]; simp) hz
              simp only [decide_eq_true_eq] at e3
              omega
            rcases bgfgApply_jobs_cases s arg1 front back J e1 with h | ⟨st, h⟩
            · exact Or.inl h
            · exact Or.inr ⟨front, J, back, st, e1, hJ, h⟩
      · left
        simp only [do_bgfg, hp, hj, Bool.false_eq_true, if_false]

theorem deletejob_jobs_cases (s : Shell) (pid : Int) :
    (deletejob s pid).2.jobs = s.jobs ∨
    ∃ front J back, s.jobs = front ++ J :: back ∧
      (deletejob s pid).2.jobs = front ++ clearjob J :: back := by
  unfold deletejob
  by_cases hp : pid < 1
  · simp [hp]
  · simp only [hp, if_false]
    cases hs : deletejobScan pid s.jobs with
    | none => exact Or.inl rfl
    | some jobs1 =>
      obtain ⟨front, J, back, e1, e2⟩ := deletejobScan_eq_some hs
      exact Or.inr ⟨front, J, back, e1, e2⟩

theorem fgLive_deletejob {s : Shell} (h : FgLive s.jobs) (pid : Int) :
    FgLive (deletejob s pid).2.jobs := by
  rcases deletejob_jobs_cases s pid with e | ⟨front, J, back, e1, e2⟩
  · rw [e]; exact h
  · rw [e2]
    rw [e1] at h
    exact fgLive_replace h (fun hfg => absurd hfg (by simp [clearjob, UNDEF, FG]))

theorem fgLive_reap {s : Shell} (h : FgLive s.jobs) (pid : Int) (status : Status) (sh1 : Shell)
    (hr : reap s pid status = some sh1) : FgLive sh1.jobs := by
  cases status with
  | exited code =>
    simp only [reap, Option.some.injEq] at hr
    subst hr
    exact fgLive_deletejob h pid
  | signaled sig =>
    simp only [reap, Option.some.injEq] at hr
    subst hr
    exact fgLive_deletejob h pid
  | stopped sig =>
    simp only [reap] at hr
    cases hg : getjobpid s.jobs pid with
    | none => simp [hg] at hr
    | some i =>
      simp only [hg, Option.some.injEq] at hr
      subst hr
      unfold getjobpid at hg
      by_cases hp : pid < 1
      · simp [hp] at hg
      · simp only [hp, if_false] at hg
        obtain ⟨front, J, back, e1, e2, _, _⟩ := firstSlot_eq_some hg
        show FgLive (setState ST i s.jobs)
        rw [e1, ← e2, setState_append]
        rw [e1] at h
        exact fgLive_replace h (fun hfg => absurd hfg (by simp [ST, FG]))

theorem fgLive_step {s t : Sys} (hinv : Inv s) (h : FgLive s.sh.jobs) (hst : Step s t) :
    FgLive t.sh.jobs := by
  cases hst with
  | launch pid bg cmdline _ hpos _ _ =>
    show FgLive (eval_parent s.sh pid bg cmdline).1.jobs
    rw [(eval_parent_jobs s.sh pid bg cmdline).1]
    rcases addjob_jobs_cases s.sh pid (if bg then BG else FG) cmdline with e | e
    · rw [e]; exact h
    · obtain ⟨front, J, back, e1, _, e3, e4⟩ := e
      rw [e4]
      rw [e1] at h
      exact fgLive_replace h (fun _ => by
        show pid ≠ 0
        omega)
  | bgfg argv _ _ =>
    show FgLive (do_bgfg s.sh argv).1.jobs
    rcases do_bgfg_jobs_cases s.sh argv hinv.1 with e | ⟨front, J, back, st, e1, e2, e3⟩
    · rw [e]; exact h
    · rw [e3]
      rw [e1] at h
      exact fgLive_replace h (fun _ => e2)
  | reaper pid status sh1 _ hr => exact fgLive_reap h pid status sh1 hr
  | wake i _ _ => exact h

/-- In every reachable state of the step model, every slot with state FG has
a pid other than 0: the tables that the shell builds satisfy the condition of
the theorem on the handlers of SIGINT and SIGTSTP. -/
theorem fgLive_reachable {s : Sys} (h : Reachable s) : FgLive s.sh.jobs := by
  obtain ⟨s0, h0, hsteps⟩ := h
  induction hsteps with
  | refl =>
    intro j hj hfg
    rw [h0.1] at hj
    simp only [initjobs, List.mem_map] at hj
    obtain ⟨a, _, rfl⟩ := hj
    exact absurd hfg (by simp [clearjob, UNDEF, FG])
  | tail hab hst ih => exact fgLive_step (inv_reachable ⟨s0, h0, hab⟩) ih hst

end Tsh
